import Mathlib

/-!
Verification of the complex-number proof assistant core
(`prover-core.ts` command engine and the `example_contradiction.ts`
frame/session layer) against its natural-language specification.

Shallow embedding conventions:
* TypeScript expression trees (`Expr`) become a mutual inductive with an
  explicit argument list `ExprList` (isomorphic to `List Expr`), so that
  every function is structurally recursive and kernel-reducible.
* Constants carry `string | number` values; numbers are modelled as
  integers (`CVal.num`), which covers every constant the engine builds
  and compares (`===` with `0`, `'0'`, `-1`, `2`).
* JavaScript in-place mutation becomes explicit state passing; a command
  returning `boolean` and possibly throwing becomes
  `Except String (Bool × State)`.
* `deepClone` (a JSON round-trip) is the identity on values; the absence
  of structural sharing it provides is modelled separately by an explicit
  heap model (`Heap`, `cloneHCtx`) for the clone-independence claim.
* The external mathjs simplifier/evaluator (the spec's "simplifier
  oracle") and the nonce-based hash of `prover-core.ts` are parameters of
  the functions that consult them.
-/

set_option autoImplicit false

namespace CPA

/-- Constant payloads: TypeScript `string | number` values, with numbers
modelled as integers. `===` on them is decidable equality. -/
inductive CVal where
  | num (n : Int)
  | str (s : String)
deriving DecidableEq, Repr

/-- The six operator kinds of `OpNode.op` in `prover-core.ts`. -/
inductive OpKind where
  | add | sub | mul | div | neg | pow
deriving DecidableEq, Repr

mutual
/-- Expression trees: `VarNode | ConstNode | OpNode | FuncNode` from
`prover-core.ts`. Operator and function nodes carry an ordered argument
list. -/
inductive Expr where
  | var (name : String)
  | const (value : CVal)
  | op (op : OpKind) (args : ExprList)
  | func (name : String) (args : ExprList)
deriving Repr

/-- Argument lists of an expression node (`Expr[]` in the source),
kept as a mutual inductive so all recursions stay structural. -/
inductive ExprList where
  | nil
  | cons (hd : Expr) (tl : ExprList)
deriving Repr
end

namespace ExprList

/-- `args[i]` — JavaScript array indexing, `none` when out of range. -/
def get? : ExprList → Nat → Option Expr
  | .nil, _ => none
  | .cons a _, 0 => some a
  | .cons _ tl, n + 1 => tl.get? n

/-- Replace the `i`-th argument (used to model in-place update of
`parent.args[i]`); out-of-range indices leave the list unchanged. -/
def set : ExprList → Nat → Expr → ExprList
  | .nil, _, _ => .nil
  | .cons _ tl, 0, e => .cons e tl
  | .cons a tl, n + 1, e => .cons a (tl.set n e)

/-- Number of arguments (`args.length`). -/
def length : ExprList → Nat
  | .nil => 0
  | .cons _ tl => tl.length + 1

/-- List membership for argument lists. -/
inductive Mem : Expr → ExprList → Prop where
  | head (a : Expr) (tl : ExprList) : Mem a (.cons a tl)
  | tail (a b : Expr) (tl : ExprList) : Mem a tl → Mem a (.cons b tl)

/-- View an argument list as a `List Expr`. -/
def toList : ExprList → List Expr
  | .nil => []
  | .cons a tl => a :: tl.toList

end ExprList

mutual
/-- `exprEquals` from `prover-core.ts`: structural equality of
expression trees (same variant, same name/value/op, pairwise equal
arguments). -/
def exprEquals : Expr → Expr → Bool
  | .var a, .var b => a == b
  | .const a, .const b => a == b
  | .op o1 as1, .op o2 as2 => o1 == o2 && exprEqualsList as1 as2
  | .func n1 as1, .func n2 as2 => n1 == n2 && exprEqualsList as1 as2
  | _, _ => false

/-- Pairwise structural equality of argument lists (the
`args.length` check plus the indexed loop of `exprEquals`). -/
def exprEqualsList : ExprList → ExprList → Bool
  | .nil, .nil => true
  | .cons a as, .cons b bs => exprEquals a b && exprEqualsList as bs
  | _, _ => false
end

mutual
theorem exprEquals_iff : ∀ a b : Expr, exprEquals a b = true ↔ a = b
  | .var _, .var _ => by simp [exprEquals]
  | .var _, .const _ => by simp [exprEquals]
  | .var _, .op _ _ => by simp [exprEquals]
  | .var _, .func _ _ => by simp [exprEquals]
  | .const _, .var _ => by simp [exprEquals]
  | .const _, .const _ => by simp [exprEquals]
  | .const _, .op _ _ => by simp [exprEquals]
  | .const _, .func _ _ => by simp [exprEquals]
  | .op _ _, .var _ => by simp [exprEquals]
  | .op _ _, .const _ => by simp [exprEquals]
  | .op o1 as1, .op o2 as2 => by
      simp [exprEquals, exprEqualsList_iff as1 as2]
  | .op _ _, .func _ _ => by simp [exprEquals]
  | .func _ _, .var _ => by simp [exprEquals]
  | .func _ _, .const _ => by simp [exprEquals]
  | .func _ _, .op _ _ => by simp [exprEquals]
  | .func n1 as1, .func n2 as2 => by
      simp [exprEquals, exprEqualsList_iff as1 as2]

theorem exprEqualsList_iff : ∀ a b : ExprList, exprEqualsList a b = true ↔ a = b
  | .nil, .nil => by simp [exprEqualsList]
  | .nil, .cons _ _ => by simp [exprEqualsList]
  | .cons _ _, .nil => by simp [exprEqualsList]
  | .cons a as, .cons b bs => by
      simp [exprEqualsList, exprEquals_iff a b, exprEqualsList_iff as bs]
end

instance : DecidableEq Expr := fun a b => decidable_of_iff _ (exprEquals_iff a b)

instance : DecidableEq ExprList := fun a b => decidable_of_iff _ (exprEqualsList_iff a b)

/-- `exprEquals` decides equality of the modelled trees. -/
theorem exprEquals_eq_decide (a b : Expr) : exprEquals a b = decide (a = b) := by
  by_cases h : a = b
  · subst h
    simp [(exprEquals_iff a a).2 rfl]
  · simp only [h, decide_False]
    exact Bool.eq_false_iff.2 fun hc => absurd ((exprEquals_iff a b).1 hc) h

/-- Fact kinds: equality (`'eq'`) and inequality (`'neq'`). -/
inductive FactKind where
  | eq | neq
deriving DecidableEq, Repr

/-- A fact: tagged pair of expressions (`FactEq | FactNeq`). -/
structure Fact where
  kind : FactKind
  lhs : Expr
  rhs : Expr
deriving DecidableEq, Repr

/-- The fact-root selector of a `Path` (`'lhs' | 'rhs'`). -/
inductive Side where
  | lhs | rhs
deriving DecidableEq, Repr

/-- A fact-level path: the source `Path` type is a list whose realized
values always start with `'lhs'`/`'rhs'` followed by argument indices;
we represent that shape directly. (The source's explicit
`cannot replace the root fact directly` error corresponds to the empty
source path, which this representation does not need to inhabit.) -/
structure FactPath where
  side : Side
  steps : List Nat
deriving DecidableEq, Repr

/-- The expression on one side of a fact. -/
def Fact.sideExpr (f : Fact) : Side → Expr
  | .lhs => f.lhs
  | .rhs => f.rhs

/-- Walk an index path below one expression (the tail of the source's
`getAtPathInFact` loop); `none` models the crash on an invalid step. -/
def getAt : Expr → List Nat → Option Expr
  | e, [] => some e
  | .op _ args, i :: rest =>
      match args.get? i with
      | some ch => getAt ch rest
      | none => none
  | .func _ args, i :: rest =>
      match args.get? i with
      | some ch => getAt ch rest
      | none => none
  | .var _, _ :: _ => none
  | .const _, _ :: _ => none

/-- Functional rendering of the in-place update done by
`setAtPathInFact` below a fact side: replace the subterm at the path,
`none` when the path does not traverse the term. -/
def setAt : Expr → List Nat → Expr → Option Expr
  | _, [], r => some r
  | .op o args, i :: rest, r =>
      match args.get? i with
      | some ch => (setAt ch rest r).map (fun ch' => .op o (args.set i ch'))
      | none => none
  | .func n args, i :: rest, r =>
      match args.get? i with
      | some ch => (setAt ch rest r).map (fun ch' => .func n (args.set i ch'))
      | none => none
  | .var _, _ :: _, _ => none
  | .const _, _ :: _, _ => none

/-- `getAtPathInFact` from `prover-core.ts`. -/
def getAtPathInFact (f : Fact) (p : FactPath) : Option Expr :=
  getAt (f.sideExpr p.side) p.steps

/-- `setAtPathInFact` from `prover-core.ts` (functional form). -/
def setAtPathInFact (f : Fact) (p : FactPath) (r : Expr) : Option Fact :=
  match p.side with
  | .lhs => (setAt f.lhs p.steps r).map (fun l => { f with lhs := l })
  | .rhs => (setAt f.rhs p.steps r).map (fun x => { f with rhs := x })

mutual
/-- `findOccurrencesInExpr(root, target)` from `prover-core.ts`:
pre-order enumeration of all paths whose subterm is structurally equal
to `target` (the node itself first, then its arguments left to right). -/
def findOccurrencesInExpr (root target : Expr) : List (List Nat) :=
  (if exprEquals root target then [([] : List Nat)] else []) ++
    (match root with
     | .op _ args => findOccurrencesInArgs args target 0
     | .func _ args => findOccurrencesInArgs args target 0
     | .var _ => []
     | .const _ => [])

/-- The `forEach` over the argument list in `findOccurrencesInExpr`,
carrying the index of the first remaining argument. -/
def findOccurrencesInArgs (args : ExprList) (target : Expr) (i : Nat) : List (List Nat) :=
  match args with
  | .nil => []
  | .cons a tl =>
      (findOccurrencesInExpr a target).map (fun p => i :: p) ++
        findOccurrencesInArgs tl target (i + 1)
end

theorem ExprList.get?_set_self : ∀ (args : ExprList) (i : Nat) (e ch : Expr),
    args.get? i = some ch → (args.set i e).get? i = some e
  | .cons _ _, 0, _, _, _ => rfl
  | .cons _ tl, n + 1, e, ch, h => ExprList.get?_set_self tl n e ch h

theorem ExprList.get?_set_ne : ∀ (args : ExprList) (i j : Nat) (e : Expr),
    i ≠ j → (args.set i e).get? j = args.get? j
  | .nil, _, _, _, _ => rfl
  | .cons _ _, 0, 0, _, h => absurd rfl h
  | .cons _ _, 0, _ + 1, _, _ => rfl
  | .cons _ _, _ + 1, 0, _, _ => rfl
  | .cons _ tl, i + 1, j + 1, e, h =>
      ExprList.get?_set_ne tl i j e (fun hc => h (by simp [hc]))

theorem setAt_nil (e r : Expr) : setAt e [] r = some r := by cases e <;> rfl

theorem getAt_nil (e : Expr) : getAt e [] = some e := by cases e <;> rfl

/-- `setAt` succeeds exactly where the path is valid. -/
theorem setAt_isSome_of_getAt : ∀ (e : Expr) (p : List Nat) (s r : Expr),
    getAt e p = some s → ∃ e', setAt e p r = some e'
  | e, [], _, r, _ => ⟨r, setAt_nil e r⟩
  | .op o args, i :: rest, s, r, h => by
      cases hg : args.get? i with
      | none => simp [getAt, hg] at h
      | some ch =>
          simp only [getAt, hg] at h
          obtain ⟨e', he'⟩ := setAt_isSome_of_getAt ch rest s r h
          exact ⟨.op o (args.set i e'), by simp [setAt, hg, he']⟩
  | .func n args, i :: rest, s, r, h => by
      cases hg : args.get? i with
      | none => simp [getAt, hg] at h
      | some ch =>
          simp only [getAt, hg] at h
          obtain ⟨e', he'⟩ := setAt_isSome_of_getAt ch rest s r h
          exact ⟨.func n (args.set i e'), by simp [setAt, hg, he']⟩
  | .var _, _ :: _, _, _, h => by simp [getAt] at h
  | .const _, _ :: _, _, _, h => by simp [getAt] at h

/-- After `setAt e p r`, reading back at `p` yields `r`. -/
theorem getAt_setAt_self : ∀ (e : Expr) (p : List Nat) (r e' : Expr),
    setAt e p r = some e' → getAt e' p = some r
  | e, [], r, e', h => by
      rw [setAt_nil e r] at h
      cases h
      exact getAt_nil r
  | .op o args, i :: rest, r, e', h => by
      cases hg : args.get? i with
      | none => simp [setAt, hg] at h
      | some ch =>
          cases hs : setAt ch rest r with
          | none => simp [setAt, hg, hs] at h
          | some ch' =>
              simp only [setAt, hg, hs, Option.map_some', Option.some.injEq] at h
              have ih := getAt_setAt_self ch rest r ch' hs
              simp [← h, getAt, ExprList.get?_set_self args i ch' ch hg, ih]
  | .func n args, i :: rest, r, e', h => by
      cases hg : args.get? i with
      | none => simp [setAt, hg] at h
      | some ch =>
          cases hs : setAt ch rest r with
          | none => simp [setAt, hg, hs] at h
          | some ch' =>
              simp only [setAt, hg, hs, Option.map_some', Option.some.injEq] at h
              have ih := getAt_setAt_self ch rest r ch' hs
              simp [← h, getAt, ExprList.get?_set_self args i ch' ch hg, ih]
  | .var _, _ :: _, _, _, h => by simp [setAt] at h
  | .const _, _ :: _, _, _, h => by simp [setAt] at h

/-- `setAt` only changes the subtree at its path: any path that neither
extends nor is an ancestor of the replaced one reads unchanged. -/
theorem getAt_setAt_disjoint : ∀ (e : Expr) (p : List Nat) (r e' : Expr)
    (q : List Nat), setAt e p r = some e' → ¬ p <+: q → ¬ q <+: p →
    getAt e' q = getAt e q
  | _, [], _, _, q, _, hpq, _ => absurd List.nil_prefix hpq
  | _, _ :: _, _, _, [], _, _, hqp => absurd List.nil_prefix hqp
  | .op o args, i :: prest, r, e', j :: qrest, h, hpq, hqp => by
      cases hg : args.get? i with
      | none => simp [setAt, hg] at h
      | some ch =>
          cases hs : setAt ch prest r with
          | none => simp [setAt, hg, hs] at h
          | some ch' =>
              simp only [setAt, hg, hs, Option.map_some', Option.some.injEq] at h
              by_cases hij : i = j
              · subst hij
                have hpq' : ¬ prest <+: qrest := fun hc =>
                  hpq (List.cons_prefix_cons.2 ⟨rfl, hc⟩)
                have hqp' : ¬ qrest <+: prest := fun hc =>
                  hqp (List.cons_prefix_cons.2 ⟨rfl, hc⟩)
                have ih := getAt_setAt_disjoint ch prest r ch' qrest hs hpq' hqp'
                simp [← h, getAt, ExprList.get?_set_self args i ch' ch hg, ih, hg]
              · simp [← h, getAt, ExprList.get?_set_ne args i j ch' hij]
  | .func n args, i :: prest, r, e', j :: qrest, h, hpq, hqp => by
      cases hg : args.get? i with
      | none => simp [setAt, hg] at h
      | some ch =>
          cases hs : setAt ch prest r with
          | none => simp [setAt, hg, hs] at h
          | some ch' =>
              simp only [setAt, hg, hs, Option.map_some', Option.some.injEq] at h
              by_cases hij : i = j
              · subst hij
                have hpq' : ¬ prest <+: qrest := fun hc =>
                  hpq (List.cons_prefix_cons.2 ⟨rfl, hc⟩)
                have hqp' : ¬ qrest <+: prest := fun hc =>
                  hqp (List.cons_prefix_cons.2 ⟨rfl, hc⟩)
                have ih := getAt_setAt_disjoint ch prest r ch' qrest hs hpq' hqp'
                simp [← h, getAt, ExprList.get?_set_self args i ch' ch hg, ih, hg]
              · simp [← h, getAt, ExprList.get?_set_ne args i j ch' hij]
  | .var _, _ :: _, _, _, _ :: _, h, _, _ => by simp [setAt] at h
  | .const _, _ :: _, _, _, _ :: _, h, _, _ => by simp [setAt] at h

theorem nil_not_mem_findOccurrencesInArgs : ∀ (args : ExprList) (target : Expr)
    (i : Nat), ([] : List Nat) ∉ findOccurrencesInArgs args target i
  | .nil, _, _ => by simp [findOccurrencesInArgs]
  | .cons a tl, target, i => by
      unfold findOccurrencesInArgs
      rw [List.mem_append, List.mem_map]
      rintro (⟨q, _, hq⟩ | hr)
      · exact List.noConfusion hq
      · exact nil_not_mem_findOccurrencesInArgs tl target (i + 1) hr

mutual
theorem mem_findOccurrencesInExpr : ∀ (root target : Expr) (p : List Nat),
    p ∈ findOccurrencesInExpr root target ↔ getAt root p = some target
  | root, target, p => by
      unfold findOccurrencesInExpr
      cases p with
      | nil =>
          have hnil : ∀ args i, ([] : List Nat) ∉ findOccurrencesInArgs args target i :=
            fun args i => nil_not_mem_findOccurrencesInArgs args target i
          by_cases he : exprEquals root target
          · have : root = target := (exprEquals_iff root target).1 he
            subst this
            cases root <;> simp [he, getAt_nil, hnil]
          · have hne : root ≠ target := fun hc => he ((exprEquals_iff root target).2 hc)
            cases root <;> simp [he, getAt_nil, hnil, hne]
      | cons k q =>
          cases root with
          | var n => simp [getAt]
          | const v => simp [getAt]
          | op o args =>
              rw [List.mem_append]
              rw [mem_findOccurrencesInArgs args target 0 (k :: q)]
              constructor
              · rintro (hl | ⟨j, q', hjq, ch, hch, hq⟩)
                · split at hl <;> simp at hl
                · cases hjq
                  simp [getAt, hch, hq]
              · intro hget
                cases hch : args.get? k with
                | none => simp [getAt, hch] at hget
                | some ch =>
                    simp only [getAt, hch] at hget
                    exact Or.inr ⟨k, q, by simp, ch, hch, hget⟩
          | func n args =>
              rw [List.mem_append]
              rw [mem_findOccurrencesInArgs args target 0 (k :: q)]
              constructor
              · rintro (hl | ⟨j, q', hjq, ch, hch, hq⟩)
                · split at hl <;> simp at hl
                · cases hjq
                  simp [getAt, hch, hq]
              · intro hget
                cases hch : args.get? k with
                | none => simp [getAt, hch] at hget
                | some ch =>
                    simp only [getAt, hch] at hget
                    exact Or.inr ⟨k, q, by simp, ch, hch, hget⟩

theorem mem_findOccurrencesInArgs : ∀ (args : ExprList) (target : Expr) (i : Nat)
    (p : List Nat), p ∈ findOccurrencesInArgs args target i ↔
      ∃ j q, p = (i + j) :: q ∧ ∃ ch, args.get? j = some ch ∧ getAt ch q = some target
  | .nil, target, i, p => by
      simp [findOccurrencesInArgs, ExprList.get?]
  | .cons a tl, target, i, p => by
      unfold findOccurrencesInArgs
      rw [List.mem_append, List.mem_map]
      constructor
      · rintro (⟨q, hq, rfl⟩ | hr)
        · exact ⟨0, q, by simp, a, rfl,
            (mem_findOccurrencesInExpr a target q).1 hq⟩
        · rcases (mem_findOccurrencesInArgs tl target (i + 1) p).1 hr with
            ⟨j, q, hp, ch, hch, hq⟩
          refine ⟨j + 1, q, ?_, ch, hch, hq⟩
          rw [hp]
          congr 1
          omega
      · rintro ⟨j, q, rfl, ch, hch, hq⟩
        cases j with
        | zero =>
            have ha : ch = a := by
              have hz : (ExprList.cons a tl).get? 0 = some a := rfl
              rw [hz] at hch
              exact (Option.some.injEq _ _ ▸ hch).symm
            rw [ha] at hq
            exact Or.inl ⟨q, (mem_findOccurrencesInExpr a target q).2 hq, by simp⟩
        | succ j' =>
            refine Or.inr ((mem_findOccurrencesInArgs tl target (i + 1) _).2
              ⟨j', q, ?_, ch, hch, hq⟩)
            congr 1
            omega
end

mutual
/-- `canProveNonZero(expr, component)` helper for the `不利` command:
whether `component ≠ 0` follows from `expr ≠ 0` by the source's
recursion (structural equality; any factor of a product; numerator or
denominator of a quotient; operand of a negation; argument of
`sqnorm`/`Re`/`Im`/`conj`). The source reads `args[0]`/`args[1]` for
div/neg/func without an arity guard; well-formed terms always have them,
and the model returns `false` on the ill-formed shapes where the source
would crash. -/
def canProveNonZero (expr component : Expr) : Bool :=
  if exprEquals expr component then true
  else
    match expr with
    | .op .mul args => canProveNonZeroList args component
    | .op .div (.cons a (.cons b _)) =>
        canProveNonZero a component || canProveNonZero b component
    | .op .neg (.cons a _) => canProveNonZero a component
    | .func nm (.cons a _) =>
        if nm == "sqnorm" || nm == "Re" || nm == "Im" || nm == "conj" then
          canProveNonZero a component
        else false
    | _ => false

/-- The `for (const arg of expr.args)` loop of the `mul` case. -/
def canProveNonZeroList (args : ExprList) (component : Expr) : Bool :=
  match args with
  | .nil => false
  | .cons a tl => canProveNonZero a component || canProveNonZeroList tl component
end

/-- The spec's description of derive-nonzero propagation, written as an
inductive relation, to be compared with the source's `canProveNonZero`:
component ≡ lhs, or lhs is mul/div/neg and the component is forced
nonzero relative to some factor/numerator/denominator/operand, or lhs is
sqnorm/Re/Im/conj applied to `x` and the component is forced nonzero
relative to `x`; add and sub never propagate. -/
inductive ForcedNonZero : Expr → Expr → Prop where
  | equals (e c : Expr) : exprEquals e c = true → ForcedNonZero e c
  | mulFactor (args : ExprList) (c a : Expr) :
      ExprList.Mem a args → ForcedNonZero a c → ForcedNonZero (.op .mul args) c
  | divNum (a b : Expr) (rest : ExprList) (c : Expr) :
      ForcedNonZero a c → ForcedNonZero (.op .div (.cons a (.cons b rest))) c
  | divDen (a b : Expr) (rest : ExprList) (c : Expr) :
      ForcedNonZero b c → ForcedNonZero (.op .div (.cons a (.cons b rest))) c
  | negArg (a : Expr) (rest : ExprList) (c : Expr) :
      ForcedNonZero a c → ForcedNonZero (.op .neg (.cons a rest)) c
  | funcArg (nm : String) (a : Expr) (rest : ExprList) (c : Expr) :
      (nm = "sqnorm" ∨ nm = "Re" ∨ nm = "Im" ∨ nm = "conj") →
      ForcedNonZero a c → ForcedNonZero (.func nm (.cons a rest)) c

mutual
/-- `isConstantExpr` from `prover-core.ts`. -/
def isConstantExpr : Expr → Bool
  | .const _ => true
  | .var _ => false
  | .op _ args => isConstantList args
  | .func _ args => isConstantList args

/-- `args.every(isConstantExpr)`. -/
def isConstantList : ExprList → Bool
  | .nil => true
  | .cons a tl => isConstantExpr a && isConstantList tl
end

mutual
/-- `collectDenominatorsInExpr` from `prover-core.ts`: every division's
denominator anywhere in the term, in traversal order (the denominator is
recorded before descending into numerator and denominator). -/
def collectDenominatorsInExpr : Expr → List Expr
  | .op .div (.cons a (.cons b _)) =>
      b :: (collectDenominatorsInExpr a ++ collectDenominatorsInExpr b)
  | .op _ args => collectDenominatorsList args
  | .func _ args => collectDenominatorsList args
  | .var _ => []
  | .const _ => []

/-- The `forEach` over argument lists in `collectDenominatorsInExpr`. -/
def collectDenominatorsList : ExprList → List Expr
  | .nil => []
  | .cons a tl => collectDenominatorsInExpr a ++ collectDenominatorsList tl
end

mutual
/-- The source's `canProveNonZero` recursion coincides with the spec's
forced-nonzero relation. -/
theorem canProveNonZero_iff : ∀ (e c : Expr),
    canProveNonZero e c = true ↔ ForcedNonZero e c
  | .var n, c => by
      by_cases he : exprEquals (Expr.var n) c
      · simp [canProveNonZero, he]
        exact .equals _ c he
      · simp [canProveNonZero, he]
        intro hf
        cases hf with
        | equals _ _ hee => exact he hee
  | .const v, c => by
      by_cases he : exprEquals (Expr.const v) c
      · simp [canProveNonZero, he]
        exact .equals _ c he
      · simp [canProveNonZero, he]
        intro hf
        cases hf with
        | equals _ _ hee => exact he hee
  | .op .add args, c => by
      by_cases he : exprEquals (Expr.op .add args) c
      · simp [canProveNonZero, he]
        exact .equals _ c he
      · simp [canProveNonZero, he]
        intro hf
        cases hf with
        | equals _ _ hee => exact he hee
  | .op .sub args, c => by
      by_cases he : exprEquals (Expr.op .sub args) c
      · simp [canProveNonZero, he]
        exact .equals _ c he
      · simp [canProveNonZero, he]
        intro hf
        cases hf with
        | equals _ _ hee => exact he hee
  | .op .pow args, c => by
      by_cases he : exprEquals (Expr.op .pow args) c
      · simp [canProveNonZero, he]
        exact .equals _ c he
      · simp [canProveNonZero, he]
        intro hf
        cases hf with
        | equals _ _ hee => exact he hee
  | .op .mul args, c => by
      by_cases he : exprEquals (Expr.op .mul args) c
      · simp [canProveNonZero, he]
        exact .equals _ c he
      · rw [show canProveNonZero (Expr.op .mul args) c = canProveNonZeroList args c by
          simp [canProveNonZero, he]]
        rw [canProveNonZeroList_iff args c]
        constructor
        · rintro ⟨a, hm, hf⟩
          exact .mulFactor args c a hm hf
        · intro hf
          cases hf with
          | equals _ _ hee => exact absurd hee he
          | mulFactor _ _ a hm hf' => exact ⟨a, hm, hf'⟩
  | .op .div .nil, c => by
      by_cases he : exprEquals (Expr.op .div .nil) c
      · simp [canProveNonZero, he]
        exact .equals _ c he
      · simp [canProveNonZero, he]
        intro hf
        cases hf with
        | equals _ _ hee => exact he hee
  | .op .div (.cons a .nil), c => by
      by_cases he : exprEquals (Expr.op .div (.cons a .nil)) c
      · simp [canProveNonZero, he]
        exact .equals _ c he
      · simp [canProveNonZero, he]
        intro hf
        cases hf with
        | equals _ _ hee => exact he hee
  | .op .div (.cons a (.cons b rest)), c => by
      by_cases he : exprEquals (Expr.op .div (.cons a (.cons b rest))) c
      · simp [canProveNonZero, he]
        exact .equals _ c he
      · rw [show canProveNonZero (Expr.op .div (.cons a (.cons b rest))) c =
            (canProveNonZero a c || canProveNonZero b c) by
          simp [canProveNonZero, he]]
        rw [Bool.or_eq_true, canProveNonZero_iff a c, canProveNonZero_iff b c]
        constructor
        · rintro (hf | hf)
          · exact .divNum a b rest c hf
          · exact .divDen a b rest c hf
        · intro hf
          cases hf with
          | equals _ _ hee => exact absurd hee he
          | divNum _ _ _ _ hf' => exact Or.inl hf'
          | divDen _ _ _ _ hf' => exact Or.inr hf'
  | .op .neg .nil, c => by
      by_cases he : exprEquals (Expr.op .neg .nil) c
      · simp [canProveNonZero, he]
        exact .equals _ c he
      · simp [canProveNonZero, he]
        intro hf
        cases hf with
        | equals _ _ hee => exact he hee
  | .op .neg (.cons a rest), c => by
      by_cases he : exprEquals (Expr.op .neg (.cons a rest)) c
      · simp [canProveNonZero, he]
        exact .equals _ c he
      · rw [show canProveNonZero (Expr.op .neg (.cons a rest)) c = canProveNonZero a c by
          simp [canProveNonZero, he]]
        rw [canProveNonZero_iff a c]
        constructor
        · intro hf
          exact .negArg a rest c hf
        · intro hf
          cases hf with
          | equals _ _ hee => exact absurd hee he
          | negArg _ _ _ hf' => exact hf'
  | .func nm .nil, c => by
      by_cases he : exprEquals (Expr.func nm .nil) c
      · simp [canProveNonZero, he]
        exact .equals _ c he
      · simp [canProveNonZero, he]
        intro hf
        cases hf with
        | equals _ _ hee => exact he hee
  | .func nm (.cons a rest), c => by
      by_cases he : exprEquals (Expr.func nm (.cons a rest)) c
      · simp [canProveNonZero, he]
        exact .equals _ c he
      · cases hb : (nm == "sqnorm" || nm == "Re" || nm == "Im" || nm == "conj") with
        | true =>
            rw [show canProveNonZero (Expr.func nm (.cons a rest)) c = canProveNonZero a c by
              simp only [canProveNonZero]
              rw [if_neg he, hb]
              simp]
            rw [canProveNonZero_iff a c]
            have hnm : nm = "sqnorm" ∨ nm = "Re" ∨ nm = "Im" ∨ nm = "conj" := by
              have hb' := hb
              simp only [Bool.or_eq_true, beq_iff_eq] at hb'
              tauto
            constructor
            · intro hf
              exact .funcArg nm a rest c hnm hf
            · intro hf
              cases hf with
              | equals _ _ hee => exact absurd hee he
              | funcArg _ _ _ _ _ hf' => exact hf'
        | false =>
            rw [show canProveNonZero (Expr.func nm (.cons a rest)) c = false by
              simp only [canProveNonZero]
              rw [if_neg he, hb]
              simp]
            simp only [Bool.false_eq_true, false_iff]
            intro hf
            cases hf with
            | equals _ _ hee => exact absurd hee he
            | funcArg _ _ _ _ hnm _ =>
                have : (nm == "sqnorm" || nm == "Re" || nm == "Im" || nm == "conj") = true := by
                  simp [Bool.or_eq_true, beq_iff_eq]
                  tauto
                rw [hb] at this
                exact Bool.noConfusion this

/-- The `mul` loop: some argument satisfies the recursion. -/
theorem canProveNonZeroList_iff : ∀ (args : ExprList) (c : Expr),
    canProveNonZeroList args c = true ↔
      ∃ a, ExprList.Mem a args ∧ ForcedNonZero a c
  | .nil, c => by
      simp only [canProveNonZeroList, Bool.false_eq_true, false_iff]
      rintro ⟨a, hm, _⟩
      cases hm
  | .cons a tl, c => by
      unfold canProveNonZeroList
      rw [Bool.or_eq_true, canProveNonZero_iff a c, canProveNonZeroList_iff tl c]
      constructor
      · rintro (h | ⟨b, hm, hf⟩)
        · exact ⟨a, .head a tl, h⟩
        · exact ⟨b, .tail b a tl hm, hf⟩
      · rintro ⟨b, hm, hf⟩
        cases hm with
        | head => exact Or.inl hf
        | tail _ _ hm' => exact Or.inr ⟨b, hm', hf⟩
end

/-- Variable bindings accumulated during a pattern match
(`Record<string, Expr>`, in insertion order). -/
abbrev Bindings := List (String × Expr)

/-- `bindings[key]` lookup (an `Expr` value is always truthy). -/
def lookupBinding (b : Bindings) (k : String) : Option Expr :=
  (b.find? (fun p => p.1 == k)).map (fun p => p.2)

/-- `isPatternVar` from `prover-core.ts`: nonempty name starting with
`?` or `$`. -/
def isPatternVar (name : String) : Bool :=
  match name.data with
  | [] => false
  | c :: _ => c == '?' || c == '$'

/-- The meta-variable branch of `patternMatch`: bind on first
occurrence, require structural equality to the existing binding on
repeat occurrences. -/
def bindPatternVar (nm : String) (node : Expr) (b : Bindings) : Option Bindings :=
  (lookupBinding b nm).elim (some (b ++ [(nm, node)]))
    (fun bb => if exprEquals bb node then some b else none)

/-- The concrete-variable branch of `patternMatch`: the node must be a
variable of the same name. -/
def matchConcreteVar (nm : String) (node : Expr) (b : Bindings) : Option Bindings :=
  match node with
  | .var nn => if nm == nn then some b else none
  | _ => none

mutual
/-- `patternMatch(pattern, node, bindings)` from `prover-core.ts`:
`some b'` is the source returning `true` with `bindings` grown to `b'`;
`none` is `false` (the partially grown map is discarded by the caller,
as in `findPatternOccurrencesInExpr`). -/
def patternMatch : Expr → Expr → Bindings → Option Bindings
  | .var nm, node, bindings =>
      if isPatternVar nm then bindPatternVar nm node bindings
      else matchConcreteVar nm node bindings
  | .const v, .const w, bindings => if w == v then some bindings else none
  | .const _, _, _ => none
  | .op po pargs, .op no nargs, bindings =>
      if po == no then patternMatchList pargs nargs bindings else none
  | .op _ _, _, _ => none
  | .func pn pargs, .func nn nargs, bindings =>
      if pn == nn then patternMatchList pargs nargs bindings else none
  | .func _ _, _, _ => none

/-- The argument loop of `patternMatch` (length check plus pairwise
matching, threading the bindings left to right). -/
def patternMatchList : ExprList → ExprList → Bindings → Option Bindings
  | .nil, .nil, b => some b
  | .cons p ps, .cons n ns, b =>
      (patternMatch p n b).bind (fun b1 => patternMatchList ps ns b1)
  | _, _, _ => none
end

mutual
/-- `instantiate(pattern, bindings)` from `prover-core.ts`; `none`
models the thrown `unbound pattern variable` error. -/
def instantiate : Expr → Bindings → Option Expr
  | .var nm, b =>
      if isPatternVar nm then lookupBinding b nm
      else some (.var nm)
  | .const v, _ => some (.const v)
  | .op o args, b => (instantiateList args b).map (fun as => .op o as)
  | .func n args, b => (instantiateList args b).map (fun as => .func n as)

/-- `args.map(a => instantiate(a, bindings))` with error propagation. -/
def instantiateList : ExprList → Bindings → Option ExprList
  | .nil, _ => some .nil
  | .cons a tl, b =>
      (instantiate a b).bind
        (fun a1 => (instantiateList tl b).map (fun as => .cons a1 as))
end

/-- One pattern occurrence: a path and the bindings of the match there. -/
structure PatternOcc where
  path : List Nat
  bindings : Bindings
deriving DecidableEq, Repr

/-- The occurrence (if any) contributed by the candidate node itself:
a fresh empty bindings map is used per node. -/
def headPatternOccs (root pattern : Expr) : List PatternOcc :=
  (patternMatch pattern root []).elim [] (fun b => [⟨[], b⟩])

mutual
/-- `findPatternOccurrencesInExpr` from `prover-core.ts`: pre-order
enumeration of all (path, bindings) pairs where the pattern matches,
with a fresh empty bindings map per candidate node. -/
def findPatternOccurrencesInExpr : Expr → Expr → List PatternOcc
  | .var n, pattern => headPatternOccs (.var n) pattern
  | .const v, pattern => headPatternOccs (.const v) pattern
  | .op o args, pattern =>
      headPatternOccs (.op o args) pattern ++ findPatternOccurrencesInArgs args pattern 0
  | .func n args, pattern =>
      headPatternOccs (.func n args) pattern ++ findPatternOccurrencesInArgs args pattern 0

/-- The `forEach` over the argument list in
`findPatternOccurrencesInExpr`. -/
def findPatternOccurrencesInArgs (args : ExprList) (pattern : Expr) (i : Nat) :
    List PatternOcc :=
  match args with
  | .nil => []
  | .cons a tl =>
      (findPatternOccurrencesInExpr a pattern).map
          (fun x => ⟨i :: x.path, x.bindings⟩) ++
        findPatternOccurrencesInArgs tl pattern (i + 1)
end

mutual
/-- Pattern variables occurring in a pattern, in traversal order. -/
def patternVars : Expr → List String
  | .var nm => if isPatternVar nm then [nm] else []
  | .const _ => []
  | .op _ args => patternVarsList args
  | .func _ args => patternVarsList args

/-- Pattern variables of an argument list. -/
def patternVarsList : ExprList → List String
  | .nil => []
  | .cons a tl => patternVars a ++ patternVarsList tl
end

/-- A rewrite rule of the registry: named `lhs`/`rhs` pattern pair. -/
structure RewriteRule where
  lhs : Expr
  rhs : Expr
deriving DecidableEq, Repr

/-- Shorthand for building unary function applications. -/
def fn1 (name : String) (a : Expr) : Expr := .func name (.cons a .nil)

/-- Shorthand for building binary operator applications. -/
def op2 (o : OpKind) (a b : Expr) : Expr := .op o (.cons a (.cons b .nil))

/-- `DEFAULT_REWRITE_RULES` from `prover-core.ts`: the fixed registry of
ten complex-number identities, with `?a`/`?b` meta-variables. -/
def DEFAULT_REWRITE_RULES : List (String × RewriteRule) :=
  [("conj_inv", ⟨fn1 "conj" (fn1 "conj" (.var "?a")), .var "?a"⟩),
   ("conj_add", ⟨fn1 "conj" (op2 .add (.var "?a") (.var "?b")),
      op2 .add (fn1 "conj" (.var "?a")) (fn1 "conj" (.var "?b"))⟩),
   ("conj_mul", ⟨fn1 "conj" (op2 .mul (.var "?a") (.var "?b")),
      op2 .mul (fn1 "conj" (.var "?a")) (fn1 "conj" (.var "?b"))⟩),
   ("conj_sub", ⟨fn1 "conj" (op2 .sub (.var "?a") (.var "?b")),
      op2 .sub (fn1 "conj" (.var "?a")) (fn1 "conj" (.var "?b"))⟩),
   ("conj_div", ⟨fn1 "conj" (op2 .div (.var "?a") (.var "?b")),
      op2 .div (fn1 "conj" (.var "?a")) (fn1 "conj" (.var "?b"))⟩),
   ("conj_neg", ⟨fn1 "conj" (.op .neg (.cons (.var "?a") .nil)),
      .op .neg (.cons (fn1 "conj" (.var "?a")) .nil)⟩),
   ("sqnorm_def", ⟨fn1 "sqnorm" (.var "?a"),
      op2 .mul (.var "?a") (fn1 "conj" (.var "?a"))⟩),
   ("re_def", ⟨fn1 "Re" (.var "?a"),
      op2 .div (op2 .add (.var "?a") (fn1 "conj" (.var "?a"))) (.const (.num 2))⟩),
   ("im_def", ⟨fn1 "Im" (.var "?a"),
      op2 .div (op2 .sub (.var "?a") (fn1 "conj" (.var "?a"))) (.const (.num 2))⟩),
   ("i_square", ⟨op2 .mul (.var "i") (.var "i"), .const (.num (-1))⟩)]

/-- Registry lookup (`this.rewriteRules[ruleName]`). -/
def lookupRule (rules : List (String × RewriteRule)) (name : String) :
    Option RewriteRule :=
  (rules.find? (fun p => p.1 == name)).map (fun p => p.2)

theorem lookupBinding_append_of_some : ∀ (b tail : Bindings) (k : String)
    (v : Expr), lookupBinding b k = some v → lookupBinding (b ++ tail) k = some v
  | [], _, _, _, h => by simp [lookupBinding] at h
  | (k1, v1) :: rest, tail, k, v, h => by
      by_cases hk : k1 == k
      · simp [lookupBinding, List.find?, hk] at h ⊢
        exact h
      · simp only [lookupBinding, List.cons_append, List.find?, hk] at h ⊢
        exact lookupBinding_append_of_some rest tail k v h

theorem lookupBinding_append_self : ∀ (b : Bindings) (k : String) (v : Expr),
    lookupBinding b k = none → lookupBinding (b ++ [(k, v)]) k = some v
  | [], k, v, _ => by simp [lookupBinding, List.find?]
  | (k1, v1) :: rest, k, v, h => by
      by_cases hk : k1 == k
      · simp [lookupBinding, List.find?, hk] at h
      · simp only [lookupBinding, List.cons_append, List.find?, hk] at h ⊢
        exact lookupBinding_append_self rest k v h

theorem bindPatternVar_bound (nm : String) (node : Expr) (b : Bindings)
    (bb : Expr) (hl : lookupBinding b nm = some bb) :
    bindPatternVar nm node b = if exprEquals bb node then some b else none := by
  unfold bindPatternVar
  rw [hl]
  rfl

theorem bindPatternVar_free (nm : String) (node : Expr) (b : Bindings)
    (hl : lookupBinding b nm = none) :
    bindPatternVar nm node b = some (b ++ [(nm, node)]) := by
  unfold bindPatternVar
  rw [hl]
  rfl

mutual
/-- A successful `patternMatch` only grows the bindings: every earlier
binding survives unchanged. -/
theorem patternMatch_preserves : ∀ (p n : Expr) (b b' : Bindings),
    patternMatch p n b = some b' →
    ∀ (k : String) (v : Expr), lookupBinding b k = some v → lookupBinding b' k = some v
  | .var nm, node, b, b', h => by
      intro k v hk
      have h' : (if isPatternVar nm then bindPatternVar nm node b
          else matchConcreteVar nm node b) = some b' := h
      by_cases hp : isPatternVar nm
      · rw [if_pos hp] at h'
        cases hl : lookupBinding b nm with
        | some bb =>
            rw [bindPatternVar_bound nm node b bb hl] at h'
            by_cases he : exprEquals bb node
            · rw [if_pos he] at h'
              cases h'
              exact hk
            · rw [if_neg he] at h'
              exact Option.noConfusion h'
        | none =>
            rw [bindPatternVar_free nm node b hl] at h'
            cases h'
            exact lookupBinding_append_of_some b _ k v hk
      · rw [if_neg hp] at h'
        cases node <;> try exact Option.noConfusion h'
        next nn =>
          have h'' : (if nm == nn then some b else none) = some b' := h'
          by_cases hn : nm == nn
          · rw [if_pos hn] at h''
            cases h''
            exact hk
          · rw [if_neg hn] at h''
            exact Option.noConfusion h''
  | .const v0, node, b, b', h => by
      intro k v hk
      cases node <;> try exact Option.noConfusion h
      case const w =>
        have h' : (if w == v0 then some b else none) = some b' := h
        by_cases hw : w == v0
        · rw [if_pos hw] at h'
          cases h'
          exact hk
        · rw [if_neg hw] at h'
          exact Option.noConfusion h'
  | .op po pargs, node, b, b', h => by
      intro k v hk
      cases node <;> try exact Option.noConfusion h
      case op no nargs =>
        have h' : (if po == no then patternMatchList pargs nargs b else none) = some b' := h
        by_cases ho : po == no
        · rw [if_pos ho] at h'
          exact patternMatchList_preserves pargs nargs b b' h' k v hk
        · rw [if_neg ho] at h'
          exact Option.noConfusion h'
  | .func pn pargs, node, b, b', h => by
      intro k v hk
      cases node <;> try exact Option.noConfusion h
      case func nn nargs =>
        have h' : (if pn == nn then patternMatchList pargs nargs b else none) = some b' := h
        by_cases hn : pn == nn
        · rw [if_pos hn] at h'
          exact patternMatchList_preserves pargs nargs b b' h' k v hk
        · rw [if_neg hn] at h'
          exact Option.noConfusion h'

/-- Argument-list form of `patternMatch_preserves`. -/
theorem patternMatchList_preserves : ∀ (ps ns : ExprList) (b b' : Bindings),
    patternMatchList ps ns b = some b' →
    ∀ (k : String) (v : Expr), lookupBinding b k = some v → lookupBinding b' k = some v
  | .nil, .nil, b, b', h => by
      intro k v hk
      cases h
      exact hk
  | .nil, .cons _ _, _, _, h => Option.noConfusion h
  | .cons _ _, .nil, _, _, h => Option.noConfusion h
  | .cons p ps, .cons n ns, b, b', h => by
      intro k v hk
      have h' : (patternMatch p n b).bind (fun b1 => patternMatchList ps ns b1) = some b' := h
      cases h1 : patternMatch p n b with
      | none => rw [h1] at h'; exact Option.noConfusion h'
      | some b1 =>
          rw [h1, Option.some_bind] at h'
          exact patternMatchList_preserves ps ns b1 b' h' k v
            (patternMatch_preserves p n b b1 h1 k v hk)
end

mutual
/-- After a successful `patternMatch`, every pattern variable of the
pattern is bound. -/
theorem patternMatch_binds : ∀ (p n : Expr) (b b' : Bindings),
    patternMatch p n b = some b' →
    ∀ nm ∈ patternVars p, (lookupBinding b' nm).isSome
  | .var nm0, node, b, b', h => by
      intro nm hnm
      have h' : (if isPatternVar nm0 then bindPatternVar nm0 node b
          else matchConcreteVar nm0 node b) = some b' := h
      by_cases hp : isPatternVar nm0
      · simp only [patternVars, hp, if_true, List.mem_singleton] at hnm
        subst hnm
        rw [if_pos hp] at h'
        cases hl : lookupBinding b nm with
        | some bb =>
            rw [bindPatternVar_bound nm node b bb hl] at h'
            by_cases he : exprEquals bb node
            · rw [if_pos he] at h'
              cases h'
              simp [hl]
            · rw [if_neg he] at h'
              exact Option.noConfusion h'
        | none =>
            rw [bindPatternVar_free nm node b hl] at h'
            cases h'
            simp [lookupBinding_append_self b nm node hl]
      · simp [patternVars, hp] at hnm
  | .const v0, node, b, b', h => by
      intro nm hnm
      simp [patternVars] at hnm
  | .op po pargs, node, b, b', h => by
      intro nm hnm
      simp only [patternVars] at hnm
      cases node <;> try exact Option.noConfusion h
      case op no nargs =>
        have h' : (if po == no then patternMatchList pargs nargs b else none) = some b' := h
        by_cases ho : po == no
        · rw [if_pos ho] at h'
          exact patternMatchList_binds pargs nargs b b' h' nm hnm
        · rw [if_neg ho] at h'
          exact Option.noConfusion h'
  | .func pn pargs, node, b, b', h => by
      intro nm hnm
      simp only [patternVars] at hnm
      cases node <;> try exact Option.noConfusion h
      case func nn nargs =>
        have h' : (if pn == nn then patternMatchList pargs nargs b else none) = some b' := h
        by_cases hn : pn == nn
        · rw [if_pos hn] at h'
          exact patternMatchList_binds pargs nargs b b' h' nm hnm
        · rw [if_neg hn] at h'
          exact Option.noConfusion h'

/-- Argument-list form of `patternMatch_binds`. -/
theorem patternMatchList_binds : ∀ (ps ns : ExprList) (b b' : Bindings),
    patternMatchList ps ns b = some b' →
    ∀ nm ∈ patternVarsList ps, (lookupBinding b' nm).isSome
  | .nil, .nil, b, b', h => by
      intro nm hnm
      simp [patternVarsList] at hnm
  | .nil, .cons _ _, _, _, h => Option.noConfusion h
  | .cons _ _, .nil, _, _, h => Option.noConfusion h
  | .cons p ps, .cons n ns, b, b', h => by
      intro nm hnm
      have h' : (patternMatch p n b).bind (fun b1 => patternMatchList ps ns b1) = some b' := h
      cases h1 : patternMatch p n b with
      | none => rw [h1] at h'; exact Option.noConfusion h'
      | some b1 =>
          rw [h1, Option.some_bind] at h'
          simp only [patternVarsList, List.mem_append] at hnm
          rcases hnm with hnm | hnm
          · have h2 := patternMatch_binds p n b b1 h1 nm hnm
            cases hv : lookupBinding b1 nm with
            | none => rw [hv] at h2; exact Bool.noConfusion h2
            | some v =>
                have h3 := patternMatchList_preserves ps ns b1 b' h' nm v hv
                simp [h3]
          · exact patternMatchList_binds ps ns b1 b' h' nm hnm
end

mutual
/-- `instantiate` succeeds whenever every pattern variable of its
pattern is bound. -/
theorem instantiate_isSome : ∀ (q : Expr) (b : Bindings),
    (∀ nm ∈ patternVars q, (lookupBinding b nm).isSome) →
    (instantiate q b).isSome
  | .var nm, b, hall => by
      have h' : instantiate (.var nm) b =
          (if isPatternVar nm then lookupBinding b nm else some (.var nm)) := rfl
      rw [h']
      by_cases hp : isPatternVar nm
      · rw [if_pos hp]
        exact hall nm (by simp [patternVars, hp])
      · rw [if_neg hp]
        simp
  | .const v, b, _ => by
      have h' : instantiate (.const v) b = some (.const v) := rfl
      simp [h']
  | .op o args, b, hall => by
      have h := instantiateList_isSome args b (fun nm hnm => hall nm (by
        simpa [patternVars] using hnm))
      have h' : instantiate (.op o args) b =
          (instantiateList args b).map (fun as => .op o as) := rfl
      rw [h']
      cases hi : instantiateList args b with
      | none => rw [hi] at h; exact Bool.noConfusion h
      | some as => simp
  | .func n args, b, hall => by
      have h := instantiateList_isSome args b (fun nm hnm => hall nm (by
        simpa [patternVars] using hnm))
      have h' : instantiate (.func n args) b =
          (instantiateList args b).map (fun as => .func n as) := rfl
      rw [h']
      cases hi : instantiateList args b with
      | none => rw [hi] at h; exact Bool.noConfusion h
      | some as => simp

/-- Argument-list form of `instantiate_isSome`. -/
theorem instantiateList_isSome : ∀ (qs : ExprList) (b : Bindings),
    (∀ nm ∈ patternVarsList qs, (lookupBinding b nm).isSome) →
    (instantiateList qs b).isSome
  | .nil, _, _ => rfl
  | .cons a tl, b, hall => by
      have h1 := instantiate_isSome a b (fun nm hnm => hall nm (by
        simp only [patternVarsList, List.mem_append]
        exact Or.inl hnm))
      have h2 := instantiateList_isSome tl b (fun nm hnm => hall nm (by
        simp only [patternVarsList, List.mem_append]
        exact Or.inr hnm))
      have h' : instantiateList (.cons a tl) b =
          (instantiate a b).bind
            (fun a1 => (instantiateList tl b).map (fun as => .cons a1 as)) := rfl
      rw [h']
      cases hi : instantiate a b with
      | none => rw [hi] at h1; exact Bool.noConfusion h1
      | some a1 =>
          cases hl : instantiateList tl b with
          | none => rw [hl] at h2; exact Bool.noConfusion h2
          | some as => simp
end

theorem mem_headPatternOccs (root pattern : Expr) (x : PatternOcc) :
    x ∈ headPatternOccs root pattern ↔
      x.path = [] ∧ patternMatch pattern root [] = some x.bindings := by
  unfold headPatternOccs
  cases hm : patternMatch pattern root [] with
  | none => simp [Option.elim]
  | some b =>
      simp only [Option.elim, List.mem_singleton]
      constructor
      · intro hx
        subst hx
        exact ⟨rfl, rfl⟩
      · rintro ⟨hp, hb⟩
        cases x
        simp at hp hb
        simp [hp, hb]

mutual
/-- Every reported pattern occurrence is a valid path whose subterm
matches the pattern starting from the empty bindings. -/
theorem of_mem_findPatternOccurrencesInExpr : ∀ (root pattern : Expr)
    (x : PatternOcc), x ∈ findPatternOccurrencesInExpr root pattern →
    ∃ sub, getAt root x.path = some sub ∧ patternMatch pattern sub [] = some x.bindings
  | .var n, pattern, x, hx => by
      rcases (mem_headPatternOccs (.var n) pattern x).1 hx with ⟨hp, hm⟩
      exact ⟨.var n, by rw [hp]; exact getAt_nil _, hm⟩
  | .const v, pattern, x, hx => by
      rcases (mem_headPatternOccs (.const v) pattern x).1 hx with ⟨hp, hm⟩
      exact ⟨.const v, by rw [hp]; exact getAt_nil _, hm⟩
  | .op o args, pattern, x, hx => by
      have hx' : x ∈ headPatternOccs (.op o args) pattern ++
          findPatternOccurrencesInArgs args pattern 0 := hx
      rw [List.mem_append] at hx'
      rcases hx' with hx' | hx'
      · rcases (mem_headPatternOccs (.op o args) pattern x).1 hx' with ⟨hp, hm⟩
        exact ⟨.op o args, by rw [hp]; exact getAt_nil _, hm⟩
      · rcases of_mem_findPatternOccurrencesInArgs args pattern 0 x hx' with
          ⟨j, q, ch, sub, hp, hch, hq, hm⟩
        refine ⟨sub, ?_, hm⟩
        rw [hp]
        simp only [getAt, Nat.zero_add, hch]
        exact hq
  | .func n args, pattern, x, hx => by
      have hx' : x ∈ headPatternOccs (.func n args) pattern ++
          findPatternOccurrencesInArgs args pattern 0 := hx
      rw [List.mem_append] at hx'
      rcases hx' with hx' | hx'
      · rcases (mem_headPatternOccs (.func n args) pattern x).1 hx' with ⟨hp, hm⟩
        exact ⟨.func n args, by rw [hp]; exact getAt_nil _, hm⟩
      · rcases of_mem_findPatternOccurrencesInArgs args pattern 0 x hx' with
          ⟨j, q, ch, sub, hp, hch, hq, hm⟩
        refine ⟨sub, ?_, hm⟩
        rw [hp]
        simp only [getAt, Nat.zero_add, hch]
        exact hq

/-- Argument-list form of `of_mem_findPatternOccurrencesInExpr`. -/
theorem of_mem_findPatternOccurrencesInArgs : ∀ (args : ExprList)
    (pattern : Expr) (i : Nat) (x : PatternOcc),
    x ∈ findPatternOccurrencesInArgs args pattern i →
    ∃ j q ch sub, x.path = (i + j) :: q ∧ args.get? j = some ch ∧
      getAt ch q = some sub ∧ patternMatch pattern sub [] = some x.bindings
  | .nil, pattern, i, x, hx => by
      have h0 : findPatternOccurrencesInArgs .nil pattern i = [] := rfl
      rw [h0] at hx
      simp at hx
  | .cons a tl, pattern, i, x, hx => by
      have hx' : x ∈ (findPatternOccurrencesInExpr a pattern).map
            (fun y => (⟨i :: y.path, y.bindings⟩ : PatternOcc)) ++
          findPatternOccurrencesInArgs tl pattern (i + 1) := hx
      rw [List.mem_append, List.mem_map] at hx'
      rcases hx' with ⟨y, hy, hxy⟩ | hx'
      · rcases of_mem_findPatternOccurrencesInExpr a pattern y hy with ⟨sub, hget, hm⟩
        refine ⟨0, y.path, a, sub, ?_, rfl, hget, ?_⟩
        · rw [← hxy]
          simp
        · rw [← hxy]
          exact hm
      · rcases of_mem_findPatternOccurrencesInArgs tl pattern (i + 1) x hx' with
          ⟨j, q, ch, sub, hp, hch, hq, hm⟩
        refine ⟨j + 1, q, ch, sub, ?_, hch, hq, hm⟩
        rw [hp]
        congr 1
        omega
end

/-- `Context` from `prover-core.ts`: a name-unique, insertion-ordered
fact store, modelled as an association list. `clone` deep-copies every
fact; on values this is the identity (the no-sharing aspect is modelled
by the heap development below). -/
abbrev Context := List (String × Fact)

namespace Context

/-- `getFact`: first entry with the given name. -/
def getFact (c : Context) (name : String) : Option Fact :=
  (c.find? (fun p => p.1 == name)).map (fun p => p.2)

/-- `has`. -/
def has (c : Context) (name : String) : Bool :=
  (c.find? (fun p => p.1 == name)).isSome

/-- `addFact`: error on duplicate name, else insert at the end. -/
def addFact (c : Context) (name : String) (fact : Fact) : Except String Context :=
  if c.has name then .error ("fact name already present: " ++ name)
  else .ok (c ++ [(name, fact)])

/-- `setFact`: overwrite in place (a JavaScript `Map.set` keeps the
original insertion position of an existing key), else append. -/
def setFact (c : Context) (name : String) (fact : Fact) : Context :=
  if c.has name then c.map (fun p => if p.1 == name then (p.1, fact) else p)
  else c ++ [(name, fact)]

/-- `keys`, in insertion order. -/
def keys (c : Context) : List String := c.map (fun p => p.1)

/-- `clone`: a deep copy; the identity on values. -/
def clone (c : Context) : Context := c

end Context

/-- The `(goal, context, explicitCompletion)` state threaded through the
`prover-core.ts` command implementations. -/
structure State where
  goal : Fact
  context : Context
  explicitCompletion : Bool
deriving DecidableEq, Repr

/-- `CmdDuoneng` (algebraic closure). -/
structure CmdDuoneng where
  denomProofs : Option (List String)
deriving DecidableEq, Repr

/-- `CmdBuli` (derive nonzero component). -/
structure CmdBuli where
  newName : String
  component : Expr
  hypothesis : String
deriving DecidableEq, Repr

/-- `CmdFanzheng` (contradiction swap). -/
structure CmdFanzheng where
  hypName : String
deriving DecidableEq, Repr

/-- `CmdRewrite` (occurrence-indexed rewrite). -/
structure CmdRewrite where
  occurrence : Option Nat
  equalityName : String
deriving DecidableEq, Repr

/-- `CmdReverse` (reverse an equality). -/
structure CmdReverse where
  oldName : String
  newName : String
deriving DecidableEq, Repr

/-- The `Command` union. -/
inductive Command where
  | duoneng (c : CmdDuoneng)
  | buli (c : CmdBuli)
  | fanzheng (c : CmdFanzheng)
  | rewrite (c : CmdRewrite)
  | reverse (c : CmdReverse)
  | certain
deriving DecidableEq, Repr

/-- The external algebraic simplifier oracle (`math.simplify` /
`math.rationalize` chain): input is the encoded difference string,
output the printed simplified form; `.error` models a thrown
exception (caught by the commands that call it). -/
abbrev SimpOracle := String → Except String String

/-- `OPAQUE_FUNC_MAP[name] || name`. -/
def OPAQUE_FUNC_MAP (name : String) : String :=
  if name == "conj" then "F_CONJ"
  else if name == "Re" then "F_RE"
  else if name == "Im" then "F_IM"
  else if name == "sqnorm" then "F_SQNORM"
  else name

/-- `String(value)` for a constant payload. -/
def CVal.asString : CVal → String
  | .num n => toString n
  | .str s => s

mutual
/-- `exprToMathJSStringOpaque` from `prover-core.ts`, with the
nonce-based `hash` as a parameter: function applications are collapsed
into opaque atoms so only field axioms can act on them. The binary
operator cases read `args[0]`/`args[1]` directly; well-formed terms
always have them and ill-formed shapes (where the source would crash)
render as the empty string. -/
def exprToMathJSStringOpaque (hashFn : String → String) : Expr → String
  | .var n => n
  | .const v => v.asString
  | .op .add args =>
      "(" ++ String.intercalate " + " (opaqueArgStrings hashFn args) ++ ")"
  | .op .sub (.cons a (.cons b _)) =>
      "(" ++ exprToMathJSStringOpaque hashFn a ++ " - " ++
        exprToMathJSStringOpaque hashFn b ++ ")"
  | .op .sub _ => ""
  | .op .mul args =>
      "(" ++ String.intercalate " * "
        ((opaqueArgStrings hashFn args).map (fun s => "(" ++ s ++ ")")) ++ ")"
  | .op .div (.cons a (.cons b _)) =>
      "(" ++ exprToMathJSStringOpaque hashFn a ++ " / " ++
        exprToMathJSStringOpaque hashFn b ++ ")"
  | .op .div _ => ""
  | .op .neg (.cons a _) => "(-" ++ exprToMathJSStringOpaque hashFn a ++ ")"
  | .op .neg _ => ""
  | .op .pow (.cons a (.cons b _)) =>
      "(" ++ exprToMathJSStringOpaque hashFn a ++ " ^ " ++
        exprToMathJSStringOpaque hashFn b ++ ")"
  | .op .pow _ => ""
  | .func name args =>
      hashFn (OPAQUE_FUNC_MAP name ++ "(" ++
        String.intercalate "," (opaqueArgStrings hashFn args) ++ ")")

/-- `args.map(exprToMathJSStringOpaque)`. -/
def opaqueArgStrings (hashFn : String → String) : ExprList → List String
  | .nil => []
  | .cons a tl => exprToMathJSStringOpaque hashFn a :: opaqueArgStrings hashFn tl
end

mutual
/-- `exprToMathJSStringReal` from `prover-core.ts`: the transparent
encoding where `conj`/`Re`/`Im` keep their numeric meaning and `sqnorm`
expands to `a * conj(a)`. -/
def exprToMathJSStringReal : Expr → String
  | .var n => n
  | .const v => v.asString
  | .op .add args =>
      "(" ++ String.intercalate " + " (realArgStrings args) ++ ")"
  | .op .sub (.cons a (.cons b _)) =>
      "(" ++ exprToMathJSStringReal a ++ " - " ++ exprToMathJSStringReal b ++ ")"
  | .op .sub _ => ""
  | .op .mul args =>
      "(" ++ String.intercalate " * "
        ((realArgStrings args).map (fun s => "(" ++ s ++ ")")) ++ ")"
  | .op .div (.cons a (.cons b _)) =>
      "(" ++ exprToMathJSStringReal a ++ " / " ++ exprToMathJSStringReal b ++ ")"
  | .op .div _ => ""
  | .op .neg (.cons a _) => "(-" ++ exprToMathJSStringReal a ++ ")"
  | .op .neg _ => ""
  | .op .pow (.cons a (.cons b _)) =>
      "(" ++ exprToMathJSStringReal a ++ " ^ " ++ exprToMathJSStringReal b ++ ")"
  | .op .pow _ => ""
  | .func name args =>
      let argStrs := realArgStrings args
      if name == "conj" then "conj(" ++ String.intercalate "," argStrs ++ ")"
      else if name == "Re" then "re(" ++ String.intercalate "," argStrs ++ ")"
      else if name == "Im" then "im(" ++ String.intercalate "," argStrs ++ ")"
      else if name == "sqnorm" then
        let a := argStrs.headD "undefined"
        "(" ++ a ++ " * conj(" ++ a ++ "))"
      else name ++ "(" ++ String.intercalate "," argStrs ++ ")"

/-- `args.map(exprToMathJSStringReal)`. -/
def realArgStrings : ExprList → List String
  | .nil => []
  | .cons a tl => exprToMathJSStringReal a :: realArgStrings tl
end

/-- The `不利` right-hand-side test: `value === 0 || value === '0'`. -/
def isZeroRHS (e : Expr) : Bool :=
  match e with
  | .const (.num 0) => true
  | .const (.str "0") => true
  | _ => false

/-- `_cmd_buli` from `prover-core.ts`: derive `component ≠ 0` from a
hypothesis `lhs ≠ 0`. Returns `.error` for the uncaught exception
thrown by `Context.addFact` when `newName` is already present. -/
def cmd_buli (s : State) (c : CmdBuli) : Except String (Bool × State) :=
  match s.context.getFact c.hypothesis with
  | none => .ok (false, s)
  | some hyp =>
      if hyp.kind != .neq then .ok (false, s)
      else if !(isZeroRHS hyp.rhs) then .ok (false, s)
      else if !(canProveNonZero hyp.lhs c.component) then .ok (false, s)
      else
        match s.context.addFact c.newName ⟨.neq, c.component, .const (.num 0)⟩ with
        | .error m => .error m
        | .ok ctx => .ok (true, { s with context := ctx })

/-- One supplied denominator proof is valid: it exists, is an
inequality, and its right side is the numeric constant `0`. -/
def validDenomProof (ctx : Context) (name : String) : Bool :=
  match ctx.getFact name with
  | none => false
  | some f => f.kind == .neq && f.rhs == .const (.num 0)

/-- A supplied name proves the given denominator: its fact's left side
is structurally equal to the denominator. -/
def matchesDenom (ctx : Context) (name : String) (d : Expr) : Bool :=
  match ctx.getFact name with
  | none => false
  | some f => exprEquals f.lhs d

/-- First-occurrence deduplication (`new Set(...)` iteration order). -/
def dedupFirst (l : List String) : List String :=
  l.foldl (fun acc x => if acc.contains x then acc else acc ++ [x]) []

/-- The encoded difference `(lhs) - (rhs)` submitted to the oracle by
`_cmd_duoneng`. -/
def duonengDiff (hashFn : String → String) (goal : Fact) : String :=
  "(" ++ exprToMathJSStringOpaque hashFn goal.lhs ++ ") - (" ++
    exprToMathJSStringOpaque hashFn goal.rhs ++ ")"

/-- `_cmd_duoneng` from `prover-core.ts` (algebraic closure): validate
every supplied denominator proof, require a structurally matching proof
for every non-constant denominator of the goal, then ask the simplifier
oracle whether `(lhs) - (rhs)` reduces to literal `0`; on success mark
the frame explicitly complete. A thrown oracle error is caught
(`.ok (false, s)`). -/
def cmd_duoneng (hashFn : String → String) (oracle : SimpOracle) (s : State)
    (c : CmdDuoneng) : Except String (Bool × State) :=
  if s.goal.kind != .eq then .ok (false, s)
  else
    let dens := collectDenominatorsInExpr s.goal.lhs ++
      collectDenominatorsInExpr s.goal.rhs
    let needed := dens.filter (fun d => !(isConstantExpr d))
    let supplied := dedupFirst (c.denomProofs.getD [])
    if !(supplied.all (fun name => validDenomProof s.context name)) then .ok (false, s)
    else if !(needed.all (fun d => supplied.any (fun name => matchesDenom s.context name d))) then
      .ok (false, s)
    else
      match oracle (duonengDiff hashFn s.goal) with
      | .error _ => .ok (false, s)
      | .ok sStr =>
          if sStr == "0" || sStr == "0.0" then
            .ok (true, { s with explicitCompletion := true })
          else .ok (false, s)

/-- `_cmd_fanzheng` from `prover-core.ts` (contradiction swap): the
hypothesis is overwritten in place with the equality of the goal's
current sides, and the goal becomes the equality of the hypothesis's
original sides. -/
def cmd_fanzheng (s : State) (c : CmdFanzheng) : Except String (Bool × State) :=
  match s.context.getFact c.hypName with
  | none => .ok (false, s)
  | some h =>
      if h.kind != .neq then .ok (false, s)
      else if s.goal.kind != .neq then .ok (false, s)
      else
        .ok (true,
          { s with
            context := s.context.setFact c.hypName ⟨.eq, s.goal.lhs, s.goal.rhs⟩,
            goal := ⟨.eq, h.lhs, h.rhs⟩ })

/-- One rewrite candidate: a path in the goal and its replacement. -/
structure RewriteOcc where
  path : FactPath
  replaceWith : Expr
deriving DecidableEq, Repr

/-- The context-equality candidates of `_cmd_rewrite`, in source order:
occurrences of the equality's `lhs` (replaced by `rhs`) on the goal's
left side then right side, then occurrences of its `rhs` (replaced by
`lhs`), same sides. -/
def contextOccs (f : Fact) (goal : Fact) : List RewriteOcc :=
  (findOccurrencesInExpr goal.lhs f.lhs).map (fun p => ⟨⟨.lhs, p⟩, f.rhs⟩) ++
    (findOccurrencesInExpr goal.rhs f.lhs).map (fun p => ⟨⟨.rhs, p⟩, f.rhs⟩) ++
    (findOccurrencesInExpr goal.lhs f.rhs).map (fun p => ⟨⟨.lhs, p⟩, f.lhs⟩) ++
    (findOccurrencesInExpr goal.rhs f.rhs).map (fun p => ⟨⟨.rhs, p⟩, f.lhs⟩)

/-- Instantiate the replacement pattern at every pattern occurrence;
`.error` models the thrown `unbound pattern variable`. -/
def instOccs (side : Side) (replPattern : Expr) :
    List PatternOcc → Except String (List RewriteOcc)
  | [] => .ok []
  | x :: rest =>
      match instantiate replPattern x.bindings with
      | none => .error "unbound pattern variable"
      | some r => (instOccs side replPattern rest).map
          (fun os => ⟨⟨side, x.path⟩, r⟩ :: os)

/-- The registry-rule candidates of `_cmd_rewrite`, in source order:
`lhs`-pattern occurrences (replaced by the instantiated `rhs`) on the
goal's left then right side, then `rhs`-pattern occurrences (replaced by
the instantiated `lhs`), same sides. -/
def registryOccs (rule : RewriteRule) (goal : Fact) :
    Except String (List RewriteOcc) := do
  let a ← instOccs .lhs rule.rhs (findPatternOccurrencesInExpr goal.lhs rule.lhs)
  let b ← instOccs .rhs rule.rhs (findPatternOccurrencesInExpr goal.rhs rule.lhs)
  let c ← instOccs .lhs rule.lhs (findPatternOccurrencesInExpr goal.lhs rule.rhs)
  let d ← instOccs .rhs rule.lhs (findPatternOccurrencesInExpr goal.rhs rule.rhs)
  return a ++ b ++ c ++ d

/-- Whether `equalityName` resolves to a context equality
(`ruleFromContext && ruleFromContext.kind === 'eq'`). -/
def resolvesAsContextEq (ctx : Context) (name : String) : Bool :=
  match ctx.getFact name with
  | some f => f.kind == .eq
  | none => false

/-- The context-equality part of the candidate list (empty when the
name does not resolve to a context equality). -/
def contextOccsOf (ctx : Context) (goal : Fact) (name : String) : List RewriteOcc :=
  match ctx.getFact name with
  | some f => if f.kind == .eq then contextOccs f goal else []
  | none => []

/-- The registry part of the candidate list (empty when the name is not
a registry rule). -/
def registryOccsOf (rules : List (String × RewriteRule)) (goal : Fact)
    (name : String) : Except String (List RewriteOcc) :=
  match lookupRule rules name with
  | some rule => registryOccs rule goal
  | none => pure []

/-- The full ordered candidate list of `_cmd_rewrite`: context-equality
candidates first, then registry-rule candidates. -/
def rewriteOccurrences (rules : List (String × RewriteRule)) (ctx : Context)
    (goal : Fact) (name : String) : Except String (List RewriteOcc) := do
  let regPart ← registryOccsOf rules goal name
  return contextOccsOf ctx goal name ++ regPart

/-- `cmd.occurrence || 1` — note that an explicit `0` also falls back
to `1` under JavaScript truthiness. -/
def occIndex : Option Nat → Nat
  | none => 1
  | some 0 => 1
  | some n => n

/-- `_cmd_rewrite` from `prover-core.ts`: resolve the name against the
context and/or the registry, build the ordered candidate list, and
replace the single subterm at the 1-based occurrence index. -/
def cmd_rewrite (rules : List (String × RewriteRule)) (s : State)
    (c : CmdRewrite) : Except String (Bool × State) :=
  if !(resolvesAsContextEq s.context c.equalityName) &&
      (lookupRule rules c.equalityName).isNone then .ok (false, s)
  else
    match rewriteOccurrences rules s.context s.goal c.equalityName with
    | .error m => .error m
    | .ok occs =>
        let k := occIndex c.occurrence
        if occs.length < k then .ok (false, s)
        else
          match occs.get? (k - 1) with
          | none => .error "occurrence index out of range"
          | some chosen =>
              match setAtPathInFact s.goal chosen.path chosen.replaceWith with
              | none => .error "invalid path"
              | some g => .ok (true, { s with goal := g })

/-- `_cmd_reverse` from `prover-core.ts`: insert `newName: rhs = lhs`.
Returns `.error` for the uncaught exception thrown by `Context.addFact`
on a `newName` collision. -/
def cmd_reverse (s : State) (c : CmdReverse) : Except String (Bool × State) :=
  match s.context.getFact c.oldName with
  | none => .ok (false, s)
  | some f =>
      if f.kind != .eq then .ok (false, s)
      else
        match s.context.addFact c.newName ⟨.eq, f.rhs, f.lhs⟩ with
        | .error m => .error m
        | .ok ctx => .ok (true, { s with context := ctx })

/-- `_cmd_certain` from `prover-core.ts` (evaluate constants): both
sides fully constant, transparent encoding, oracle must reduce the
difference to literal `0`; on success mark the frame explicitly
complete. -/
def cmd_certain (oracle : SimpOracle) (s : State) : Except String (Bool × State) :=
  if s.goal.kind != .eq then .ok (false, s)
  else if !(isConstantExpr s.goal.lhs) || !(isConstantExpr s.goal.rhs) then .ok (false, s)
  else
    match oracle ("(" ++ exprToMathJSStringReal s.goal.lhs ++ ") - (" ++
        exprToMathJSStringReal s.goal.rhs ++ ")") with
    | .error _ => .ok (false, s)
    | .ok sStr =>
        if sStr == "0" || sStr == "0.0" then
          .ok (true, { s with explicitCompletion := true })
        else .ok (false, s)

/-- `Prover.runCommand` from `prover-core.ts`: reject everything once
the frame is explicitly complete, else dispatch on the command. -/
def runCommand (rules : List (String × RewriteRule)) (hashFn : String → String)
    (oracle : SimpOracle) (s : State) (cmd : Command) :
    Except String (Bool × State) :=
  if s.explicitCompletion then .ok (false, s)
  else
    match cmd with
    | .buli c => cmd_buli s c
    | .duoneng c => cmd_duoneng hashFn oracle s c
    | .fanzheng c => cmd_fanzheng s c
    | .rewrite c => cmd_rewrite rules s c
    | .reverse c => cmd_reverse s c
    | .certain => cmd_certain oracle s

/-- `Prover.checkGoalProved` from `prover-core.ts`. -/
def checkGoalProved (s : State) : Bool :=
  if s.explicitCompletion then true
  else
    match s.goal.kind with
    | .eq =>
        if exprEquals s.goal.lhs s.goal.rhs then true
        else (Context.keys s.context).any (fun k =>
          match Context.getFact s.context k with
          | some f => f.kind == .eq && exprEquals f.lhs s.goal.lhs &&
              exprEquals f.rhs s.goal.rhs
          | none => false)
    | .neq =>
        (Context.keys s.context).any (fun k =>
          match Context.getFact s.context k with
          | some f => f.kind == .neq && exprEquals f.lhs s.goal.lhs &&
              exprEquals f.rhs s.goal.rhs
          | none => false)

theorem Context.getFact_append_of_some (c tail : Context) (k : String) (f : Fact)
    (h : Context.getFact c k = some f) : Context.getFact (c ++ tail) k = some f := by
  unfold Context.getFact at h ⊢
  cases hf : c.find? (fun p => p.1 == k) with
  | none => rw [hf] at h; simp at h
  | some pair =>
      rw [hf] at h
      rw [List.find?_append, hf]
      exact h

theorem getFact_mem_keys (ctx : Context) (k : String) (f : Fact)
    (h : Context.getFact ctx k = some f) : k ∈ Context.keys ctx := by
  unfold Context.getFact at h
  cases hf : ctx.find? (fun p => p.1 == k) with
  | none => rw [hf] at h; simp at h
  | some pair =>
      have hmem := List.mem_of_find?_eq_some hf
      have hkey := List.find?_some hf
      simp only [beq_iff_eq] at hkey
      unfold Context.keys
      rw [← hkey]
      exact List.mem_map_of_mem (fun p => p.1) hmem

theorem context_any_iff (ctx : Context) (P : Fact → Bool) :
    ((Context.keys ctx).any (fun k =>
      match Context.getFact ctx k with
      | some f => P f
      | none => false)) = true ↔
      ∃ k f, Context.getFact ctx k = some f ∧ P f = true := by
  rw [List.any_eq_true]
  constructor
  · rintro ⟨k, hk, hp⟩
    cases hg : Context.getFact ctx k with
    | none =>
        simp only [hg] at hp
        exact Bool.noConfusion hp
    | some f =>
        simp only [hg] at hp
        exact ⟨k, f, hg, hp⟩
  · rintro ⟨k, f, hg, hp⟩
    refine ⟨k, getFact_mem_keys ctx k f hg, ?_⟩
    simp only [hg]
    exact hp

/-- C5: the goal-completion check returns true iff the frame was marked
explicitly complete, or the goal is an equality with structurally equal
sides, or the goal is an equality and some context fact is an equality
with the same pair in the same orientation, or the goal is an inequality
and some context fact is an inequality with the exact same pair; an
inequality goal is never closed by mere syntactic difference of sides. -/
theorem checkGoalProved_iff_spec (s : State) :
    checkGoalProved s = true ↔
      (s.explicitCompletion = true ∨
        (s.goal.kind = .eq ∧ (s.goal.lhs = s.goal.rhs ∨
          ∃ k f, Context.getFact s.context k = some f ∧ f.kind = .eq ∧
            f.lhs = s.goal.lhs ∧ f.rhs = s.goal.rhs)) ∨
        (s.goal.kind = .neq ∧
          ∃ k f, Context.getFact s.context k = some f ∧ f.kind = .neq ∧
            f.lhs = s.goal.lhs ∧ f.rhs = s.goal.rhs)) := by
  unfold checkGoalProved
  by_cases hec : s.explicitCompletion
  · simp [hec]
  · simp only [hec, if_false, Bool.false_eq_true, false_or]
    cases hk : s.goal.kind with
    | eq =>
        by_cases heq : exprEquals s.goal.lhs s.goal.rhs
        · have heq' : s.goal.lhs = s.goal.rhs := (exprEquals_iff _ _).1 heq
          rw [if_pos heq]
          constructor
          · intro _
            exact Or.inl ⟨rfl, Or.inl heq'⟩
          · intro _
            rfl
        · rw [if_neg heq]
          have hne : s.goal.lhs ≠ s.goal.rhs := fun hc =>
            heq ((exprEquals_iff _ _).2 hc)
          rw [context_any_iff s.context
            (fun f => f.kind == .eq && exprEquals f.lhs s.goal.lhs &&
              exprEquals f.rhs s.goal.rhs)]
          constructor
          · rintro ⟨k, f, hg, hp⟩
            simp only [Bool.and_eq_true, beq_iff_eq, exprEquals_iff] at hp
            exact Or.inl ⟨rfl, Or.inr ⟨k, f, hg, hp.1.1, hp.1.2, hp.2⟩⟩
          · rintro (⟨_, (hc | ⟨k, f, hg, hfk, hfl, hfr⟩)⟩ | ⟨hc, _⟩)
            · exact absurd hc hne
            · refine ⟨k, f, hg, ?_⟩
              simp [hfk, hfl, hfr, (exprEquals_iff _ _).2]
            · exact FactKind.noConfusion hc
    | neq =>
        rw [context_any_iff s.context
          (fun f => f.kind == .neq && exprEquals f.lhs s.goal.lhs &&
            exprEquals f.rhs s.goal.rhs)]
        constructor
        · rintro ⟨k, f, hg, hp⟩
          simp only [Bool.and_eq_true, beq_iff_eq, exprEquals_iff] at hp
          exact Or.inr ⟨rfl, k, f, hg, hp.1.1, hp.1.2, hp.2⟩
        · rintro (⟨hc, _⟩ | ⟨_, k, f, hg, hfk, hfl, hfr⟩)
          · exact FactKind.noConfusion hc
          · refine ⟨k, f, hg, ?_⟩
            simp [hfk, hfl, hfr, (exprEquals_iff _ _).2]

/-- C2: when the named hypothesis exists as an inequality and the goal
is an inequality, the contradiction-swap command atomically overwrites
the hypothesis in place with the equality of the goal's current sides
and replaces the goal with the equality of the hypothesis's original
sides; when either precondition fails, neither the goal nor the
hypothesis changes. -/
theorem fanzheng_swaps_atomically (s : State) (c : CmdFanzheng) :
    (∀ h : Fact, Context.getFact s.context c.hypName = some h → h.kind = .neq →
      s.goal.kind = .neq →
      cmd_fanzheng s c = .ok (true,
        { s with
          context := s.context.setFact c.hypName ⟨.eq, s.goal.lhs, s.goal.rhs⟩,
          goal := ⟨.eq, h.lhs, h.rhs⟩ })) ∧
    ((Context.getFact s.context c.hypName = none ∨
      (∃ h, Context.getFact s.context c.hypName = some h ∧ h.kind ≠ .neq) ∨
      s.goal.kind ≠ .neq) →
      cmd_fanzheng s c = .ok (false, s)) := by
  constructor
  · intro h hget hk hg
    unfold cmd_fanzheng
    rw [hget]
    simp [hk, hg]
  · intro hbad
    unfold cmd_fanzheng
    cases hget : Context.getFact s.context c.hypName with
    | none => rfl
    | some h =>
        rcases hbad with hc | ⟨h2, hget2, hk2⟩ | hgk
        · rw [hget] at hc
          exact Option.noConfusion hc
        · rw [hget] at hget2
          cases hget2
          simp [show (h.kind != FactKind.neq) = true by
            cases hkk : h.kind <;> simp_all]
        · by_cases hk : h.kind = .neq
          · simp [hk, show (s.goal.kind != FactKind.neq) = true by
              cases hkk : s.goal.kind <;> simp_all]
          · simp [show (h.kind != FactKind.neq) = true by
              cases hkk : h.kind <;> simp_all]

/-- Witness for the contradiction-swap theorem at a concrete state:
hypothesis `hd : a ≠ b`, goal `x ≠ y`; after the command the hypothesis
is `x = y` and the goal is `a = b`; on a state whose goal is an
equality the command fails and changes nothing. -/
theorem fanzheng_swaps_atomically_witness :
    (cmd_fanzheng
        ⟨⟨.neq, .var "x", .var "y"⟩, [("hd", ⟨.neq, .var "a", .var "b"⟩)], false⟩
        ⟨"hd"⟩ =
      .ok (true, ⟨⟨.eq, .var "a", .var "b"⟩,
        [("hd", ⟨.eq, .var "x", .var "y"⟩)], false⟩)) ∧
    (cmd_fanzheng
        ⟨⟨.eq, .var "x", .var "y"⟩, [("hd", ⟨.neq, .var "a", .var "b"⟩)], false⟩
        ⟨"hd"⟩ =
      .ok (false, ⟨⟨.eq, .var "x", .var "y"⟩,
        [("hd", ⟨.neq, .var "a", .var "b"⟩)], false⟩)) := by
  constructor
  · have h := (fanzheng_swaps_atomically
      ⟨⟨.neq, .var "x", .var "y"⟩, [("hd", ⟨.neq, .var "a", .var "b"⟩)], false⟩
      ⟨"hd"⟩).1 ⟨.neq, .var "a", .var "b"⟩ (by rfl) rfl rfl
    rw [h]
    rfl
  · exact (fanzheng_swaps_atomically
      ⟨⟨.eq, .var "x", .var "y"⟩, [("hd", ⟨.neq, .var "a", .var "b"⟩)], false⟩
      ⟨"hd"⟩).2 (Or.inr (Or.inr (by simp)))

/-- C8 counterexample: with context facts `a : x = y` and `b : y = x`,
reversing `a` into the already-present name `b` does not return a
failure outcome — `Context.addFact` throws (modelled by `.error`),
contradicting the claim that name collisions yield a failure outcome
with nothing thrown. -/
theorem reverse_collision_throws :
    cmd_reverse
      ⟨⟨.eq, .var "x", .var "x"⟩,
        [("a", ⟨.eq, .var "x", .var "y"⟩), ("b", ⟨.eq, .var "y", .var "x"⟩)], false⟩
      ⟨"a", "b"⟩ =
      .error "fact name already present: b" := by rfl

/-- C8 (amended): when `oldName` names a context equality and `newName`
is not already present, reverse inserts `newName: rhs = lhs` and leaves
`oldName`'s fact unchanged; a missing or wrong-kind `oldName` returns a
failure outcome with the state unchanged; but a `newName` collision
propagates the exception thrown by `Context.addFact` (state unchanged)
instead of returning a failure outcome. -/
theorem reverse_behaviour (s : State) (c : CmdReverse) :
    (Context.getFact s.context c.oldName = none →
      cmd_reverse s c = .ok (false, s)) ∧
    (∀ f, Context.getFact s.context c.oldName = some f → f.kind ≠ .eq →
      cmd_reverse s c = .ok (false, s)) ∧
    (∀ f, Context.getFact s.context c.oldName = some f → f.kind = .eq →
      Context.has s.context c.newName = false →
      cmd_reverse s c = .ok (true,
        { s with context := s.context ++ [(c.newName, ⟨.eq, f.rhs, f.lhs⟩)] }) ∧
      Context.getFact (s.context ++ [(c.newName, ⟨.eq, f.rhs, f.lhs⟩)]) c.oldName =
        some f) ∧
    (∀ f, Context.getFact s.context c.oldName = some f → f.kind = .eq →
      Context.has s.context c.newName = true →
      cmd_reverse s c = .error ("fact name already present: " ++ c.newName)) := by
  refine ⟨?_, ?_, ?_, ?_⟩
  · intro hget
    unfold cmd_reverse
    rw [hget]
  · intro f hget hk
    unfold cmd_reverse
    rw [hget]
    simp [show (f.kind != FactKind.eq) = true by cases hkk : f.kind <;> simp_all]
  · intro f hget hk hfree
    constructor
    · unfold cmd_reverse
      rw [hget]
      simp [hk, Context.addFact, hfree]
    · exact Context.getFact_append_of_some s.context _ c.oldName f hget
  · intro f hget hk hcoll
    unfold cmd_reverse
    rw [hget]
    simp [hk, Context.addFact, hcoll]

/-- Witness for the reverse theorem at a concrete state: reversing
`a : x = y` into the fresh name `r` inserts `r : y = x` and keeps `a`. -/
theorem reverse_behaviour_witness :
    cmd_reverse
        ⟨⟨.eq, .var "x", .var "x"⟩, [("a", ⟨.eq, .var "x", .var "y"⟩)], false⟩
        ⟨"a", "r"⟩ =
      .ok (true, ⟨⟨.eq, .var "x", .var "x"⟩,
        [("a", ⟨.eq, .var "x", .var "y"⟩), ("r", ⟨.eq, .var "y", .var "x"⟩)], false⟩) := by
  have h := ((reverse_behaviour
    ⟨⟨.eq, .var "x", .var "x"⟩, [("a", ⟨.eq, .var "x", .var "y"⟩)], false⟩
    ⟨"a", "r"⟩).2.2.1 ⟨.eq, .var "x", .var "y"⟩ (by rfl) rfl (by rfl)).1
  rw [h]
  rfl

/-- C4 counterexample: hypothesis `h : x ≠ 0` forces `x` nonzero, yet
the derive-nonzero command does not succeed when `newName` collides with
an existing fact name — `Context.addFact` throws (modelled by `.error`),
so success is not equivalent to the component being forced nonzero. -/
theorem buli_collision_counterexample :
    canProveNonZero (.var "x") (.var "x") = true ∧
    cmd_buli
        ⟨⟨.eq, .var "x", .var "x"⟩,
          [("h", ⟨.neq, .var "x", .const (.num 0)⟩)], false⟩
        ⟨"h", .var "x", "h"⟩ =
      .error "fact name already present: h" := by
  constructor
  · rfl
  · rfl

/-- C4 (amended): for a derive-nonzero command whose hypothesis is an
inequality with right side constant 0 and whose new name is not already
present, the command succeeds and inserts `component ≠ 0` exactly when
the component is forced nonzero by the recursion (component ≡ lhs, or
propagation through mul factors, div numerator/denominator, neg operand,
or the argument of sqnorm/Re/Im/conj); otherwise it fails with no
mutation. The recursion never descends through add or sub: on an add or
sub node it only succeeds when the component equals the whole node.
(When the new name collides, `Context.addFact` throws instead.) -/
theorem buli_behaviour (s : State) (c : CmdBuli) (h : Fact)
    (hget : Context.getFact s.context c.hypothesis = some h)
    (hk : h.kind = .neq) (hz : isZeroRHS h.rhs = true)
    (hfree : Context.has s.context c.newName = false) :
    (cmd_buli s c = .ok (true,
        { s with context :=
            s.context ++ [(c.newName, ⟨.neq, c.component, .const (.num 0)⟩)] }) ↔
      ForcedNonZero h.lhs c.component) ∧
    (¬ ForcedNonZero h.lhs c.component → cmd_buli s c = .ok (false, s)) ∧
    (∀ (o : OpKind) (args : ExprList) (comp : Expr), (o = .add ∨ o = .sub) →
      (canProveNonZero (.op o args) comp = true ↔
        exprEquals (.op o args) comp = true)) := by
  have hnot : ¬ ForcedNonZero h.lhs c.component →
      cmd_buli s c = .ok (false, s) := by
    intro hnf
    have hcp : canProveNonZero h.lhs c.component = false := by
      cases hc : canProveNonZero h.lhs c.component with
      | true => exact absurd ((canProveNonZero_iff _ _).1 hc) hnf
      | false => rfl
    unfold cmd_buli
    rw [hget]
    simp [hk, hz, hcp]
  refine ⟨?_, hnot, ?_⟩
  · by_cases hcp : canProveNonZero h.lhs c.component
    · have hforced := (canProveNonZero_iff h.lhs c.component).1 hcp
      have hcmd : cmd_buli s c = .ok (true,
          { s with context :=
              s.context ++ [(c.newName, ⟨.neq, c.component, .const (.num 0)⟩)] }) := by
        unfold cmd_buli
        rw [hget]
        simp [hk, hz, hcp, Context.addFact, hfree]
      exact iff_of_true hcmd hforced
    · have hnf : ¬ ForcedNonZero h.lhs c.component := fun hf =>
        hcp ((canProveNonZero_iff _ _).2 hf)
      rw [hnot hnf]
      constructor
      · intro heqn
        simp at heqn
      · intro hf
        exact absurd hf hnf
  · intro o args comp hor
    constructor
    · intro hc
      rcases hor with rfl | rfl
      · by_cases he : exprEquals (Expr.op .add args) comp
        · exact he
        · rw [show canProveNonZero (Expr.op .add args) comp = false by
            simp [canProveNonZero, he]] at hc
          exact Bool.noConfusion hc
      · by_cases he : exprEquals (Expr.op .sub args) comp
        · exact he
        · rw [show canProveNonZero (Expr.op .sub args) comp = false by
            simp [canProveNonZero, he]] at hc
          exact Bool.noConfusion hc
    · intro he
      rcases hor with rfl | rfl <;> simp [canProveNonZero, he]

/-- Witness for the derive-nonzero theorem at a concrete state: from
`H : a * b / cc ≠ 0`, deriving factor `b` succeeds and inserts
`nb : b ≠ 0`, while deriving the unrelated `d` fails with no change. -/
theorem buli_behaviour_witness :
    (cmd_buli
        ⟨⟨.eq, .var "x", .var "x"⟩,
          [("H", ⟨.neq,
            .op .div (.cons (.op .mul (.cons (.var "a") (.cons (.var "b") .nil)))
              (.cons (.var "cc") .nil)), .const (.num 0)⟩)], false⟩
        ⟨"nb", .var "b", "H"⟩ =
      .ok (true,
        ⟨⟨.eq, .var "x", .var "x"⟩,
          [("H", ⟨.neq,
            .op .div (.cons (.op .mul (.cons (.var "a") (.cons (.var "b") .nil)))
              (.cons (.var "cc") .nil)), .const (.num 0)⟩),
           ("nb", ⟨.neq, .var "b", .const (.num 0)⟩)], false⟩)) ∧
    (cmd_buli
        ⟨⟨.eq, .var "x", .var "x"⟩,
          [("H", ⟨.neq,
            .op .div (.cons (.op .mul (.cons (.var "a") (.cons (.var "b") .nil)))
              (.cons (.var "cc") .nil)), .const (.num 0)⟩)], false⟩
        ⟨"nd", .var "d", "H"⟩ =
      .ok (false,
        ⟨⟨.eq, .var "x", .var "x"⟩,
          [("H", ⟨.neq,
            .op .div (.cons (.op .mul (.cons (.var "a") (.cons (.var "b") .nil)))
              (.cons (.var "cc") .nil)), .const (.num 0)⟩)], false⟩)) := by
  constructor
  · have hf : ForcedNonZero
        (.op .div (.cons (.op .mul (.cons (.var "a") (.cons (.var "b") .nil)))
          (.cons (.var "cc") .nil))) (.var "b") :=
      .divNum _ _ _ _ (.mulFactor _ _ _
        (.tail _ _ _ (.head _ _)) (.equals _ _ (by decide)))
    have h := (buli_behaviour
      ⟨⟨.eq, .var "x", .var "x"⟩,
        [("H", ⟨.neq,
          .op .div (.cons (.op .mul (.cons (.var "a") (.cons (.var "b") .nil)))
            (.cons (.var "cc") .nil)), .const (.num 0)⟩)], false⟩
      ⟨"nb", .var "b", "H"⟩ _ rfl rfl rfl rfl).1.mpr hf
    rw [h]
    rfl
  · exact (buli_behaviour
      ⟨⟨.eq, .var "x", .var "x"⟩,
        [("H", ⟨.neq,
          .op .div (.cons (.op .mul (.cons (.var "a") (.cons (.var "b") .nil)))
            (.cons (.var "cc") .nil)), .const (.num 0)⟩)], false⟩
      ⟨"nd", .var "d", "H"⟩ _ rfl rfl rfl rfl).2.1
      (fun hforced => absurd ((canProveNonZero_iff _ _).2 hforced) (by decide))

/-- C3: the algebraic-closure command collects every division's
denominator on both sides of an equality goal; whenever some
non-constant denominator has no supplied proof that is literally
`denominator ≠ 0` with a structurally equal left side, it fails with no
mutation and without consulting the simplifier oracle (the result is
`.ok (false, s)` for every oracle); when every supplied proof is valid,
every non-constant denominator is matched, and the oracle reduces
`(lhs) - (rhs)` to literal zero, the frame is marked explicitly
complete. -/
theorem duoneng_denominator_guard (hashFn : String → String) (s : State)
    (c : CmdDuoneng) (hgoal : s.goal.kind = .eq) :
    ((∃ d ∈ ((collectDenominatorsInExpr s.goal.lhs ++
        collectDenominatorsInExpr s.goal.rhs).filter (fun d => !(isConstantExpr d))),
      ∀ name ∈ dedupFirst (c.denomProofs.getD []),
        ¬(validDenomProof s.context name = true ∧
          matchesDenom s.context name d = true)) →
      ∀ oracle : SimpOracle, cmd_duoneng hashFn oracle s c = .ok (false, s)) ∧
    ((∀ name ∈ dedupFirst (c.denomProofs.getD []),
        validDenomProof s.context name = true) →
     (∀ d ∈ ((collectDenominatorsInExpr s.goal.lhs ++
        collectDenominatorsInExpr s.goal.rhs).filter (fun d => !(isConstantExpr d))),
        ∃ name ∈ dedupFirst (c.denomProofs.getD []),
          matchesDenom s.context name d = true) →
     ∀ (oracle : SimpOracle) (sStr : String),
        oracle (duonengDiff hashFn s.goal) = .ok sStr → (sStr = "0" ∨ sStr = "0.0") →
        cmd_duoneng hashFn oracle s c =
          .ok (true, { s with explicitCompletion := true })) := by
  constructor
  · rintro ⟨d, hd, hnone⟩ oracle
    unfold cmd_duoneng
    cases hall : (dedupFirst (c.denomProofs.getD [])).all
        (fun name => validDenomProof s.context name) with
    | false => simp [hgoal, hall]
    | true =>
        have hmatched : ((collectDenominatorsInExpr s.goal.lhs ++
            collectDenominatorsInExpr s.goal.rhs).filter
              (fun d => !(isConstantExpr d))).all
            (fun d => (dedupFirst (c.denomProofs.getD [])).any
              (fun name => matchesDenom s.context name d)) = false := by
          rw [Bool.eq_false_iff]
          intro hforall
          have hda := List.all_eq_true.1 hforall d hd
          rw [List.any_eq_true] at hda
          obtain ⟨name, hnm, hmd⟩ := hda
          have hv := List.all_eq_true.1 hall name hnm
          exact hnone name hnm ⟨hv, hmd⟩
        simp only [hgoal, hall, hmatched, bne_self_eq_false, Bool.not_true,
          Bool.not_false, Bool.false_eq_true, Bool.true_eq_false, if_false, if_true]
  · intro hvalid hmatch oracle sStr hor hzero
    unfold cmd_duoneng
    have hall : (dedupFirst (c.denomProofs.getD [])).all
        (fun name => validDenomProof s.context name) = true :=
      List.all_eq_true.2 hvalid
    have hm : ((collectDenominatorsInExpr s.goal.lhs ++
        collectDenominatorsInExpr s.goal.rhs).filter
          (fun d => !(isConstantExpr d))).all
        (fun d => (dedupFirst (c.denomProofs.getD [])).any
          (fun name => matchesDenom s.context name d)) = true := by
      rw [List.all_eq_true]
      intro d hd
      rw [List.any_eq_true]
      exact hmatch d hd
    simp only [hgoal, hall, hm, bne_self_eq_false, Bool.not_true, Bool.not_false,
      Bool.false_eq_true, Bool.true_eq_false, if_false, if_true, hor]
    rcases hzero with rfl | rfl <;> simp

/-- Witness for the algebraic-closure theorem: on goal `x = x` with no
denominators and no supplied proofs, an oracle that reduces the
difference to `0` completes the frame; and on goal `(x / y) = x` with no
proofs the command fails for that same oracle (before consulting it). -/
theorem duoneng_denominator_guard_witness :
    (cmd_duoneng (fun str => str) (fun _ => .ok "0")
        ⟨⟨.eq, .var "x", .var "x"⟩, [], false⟩ ⟨none⟩ =
      .ok (true, ⟨⟨.eq, .var "x", .var "x"⟩, [], true⟩)) ∧
    (cmd_duoneng (fun str => str) (fun _ => .ok "0")
        ⟨⟨.eq, .op .div (.cons (.var "x") (.cons (.var "y") .nil)), .var "x"⟩,
          [], false⟩ ⟨none⟩ =
      .ok (false, ⟨⟨.eq, .op .div (.cons (.var "x") (.cons (.var "y") .nil)),
        .var "x"⟩, [], false⟩)) := by
  constructor
  · have h := (duoneng_denominator_guard (fun str => str)
      ⟨⟨.eq, .var "x", .var "x"⟩, [], false⟩ ⟨none⟩ rfl).2
      (by intro name hname; simp [dedupFirst] at hname)
      (by intro d hd; simp [collectDenominatorsInExpr, collectDenominatorsList] at hd)
      (fun _ => .ok "0") "0" rfl (Or.inl rfl)
    rw [h]
  · have h := (duoneng_denominator_guard (fun str => str)
      ⟨⟨.eq, .op .div (.cons (.var "x") (.cons (.var "y") .nil)), .var "x"⟩,
        [], false⟩ ⟨none⟩ rfl).1
      ⟨.var "y", by decide, by intro name hname; simp [dedupFirst] at hname⟩
      (fun _ => .ok "0")
    rw [h]

/-- Pattern-variable balance of a rule registry: each side's pattern
variables are contained in the other side's (so instantiating either
side from a match of the other never hits an unbound variable). -/
def rulesBalanced (rules : List (String × RewriteRule)) : Bool :=
  rules.all (fun p =>
    (patternVars p.2.rhs).all (fun nm => decide (nm ∈ patternVars p.2.lhs)) &&
      (patternVars p.2.lhs).all (fun nm => decide (nm ∈ patternVars p.2.rhs)))

theorem default_rules_balanced : rulesBalanced DEFAULT_REWRITE_RULES = true := by
  decide

theorem occIndex_pos (o : Option Nat) : 1 ≤ occIndex o := by
  cases o with
  | none => exact Nat.le_refl 1
  | some n => cases n with
    | zero => exact Nat.le_refl 1
    | succ m => exact Nat.succ_le_succ (Nat.zero_le m)

theorem instOccs_ok (side : Side) (repl : Expr) : ∀ (xs : List PatternOcc),
    (∀ x ∈ xs, (instantiate repl x.bindings).isSome) →
    ∃ os, instOccs side repl xs = .ok os
  | [], _ => ⟨[], rfl⟩
  | x :: rest, hall => by
      have hx := hall x (List.mem_cons_self x rest)
      cases hi : instantiate repl x.bindings with
      | none => rw [hi] at hx; exact Bool.noConfusion hx
      | some r =>
          obtain ⟨os, hos⟩ := instOccs_ok side repl rest
            (fun y hy => hall y (List.mem_cons_of_mem x hy))
          refine ⟨⟨⟨side, x.path⟩, r⟩ :: os, ?_⟩
          unfold instOccs
          rw [hi, hos]
          rfl

theorem mem_instOccs (side : Side) (repl : Expr) : ∀ (xs : List PatternOcc)
    (os : List RewriteOcc), instOccs side repl xs = .ok os →
    ∀ occ ∈ os, ∃ x ∈ xs, ∃ r, instantiate repl x.bindings = some r ∧
      occ = ⟨⟨side, x.path⟩, r⟩
  | [], os, h, occ, hocc => by
      cases h
      simp at hocc
  | x :: rest, os, h, occ, hocc => by
      unfold instOccs at h
      cases hi : instantiate repl x.bindings with
      | none => rw [hi] at h; exact Except.noConfusion h
      | some r =>
          rw [hi] at h
          cases hrest : instOccs side repl rest with
          | error m => rw [hrest] at h; exact Except.noConfusion h
          | ok os' =>
              rw [hrest] at h
              have h2 : (Except.ok (⟨⟨side, x.path⟩, r⟩ :: os') :
                  Except String (List RewriteOcc)) = Except.ok os := h
              cases h2
              rcases List.mem_cons.1 hocc with rfl | hocc'
              · exact ⟨x, List.mem_cons_self x rest, r, hi, rfl⟩
              · obtain ⟨y, hy, r', hr', heq⟩ :=
                  mem_instOccs side repl rest os' hrest occ hocc'
                exact ⟨y, List.mem_cons_of_mem x hy, r', hr', heq⟩

/-- Instantiation totality on one side of a balanced rule: every
pattern occurrence of `pat` can instantiate `repl`. -/
theorem instantiate_total_of_balanced (pat repl root : Expr)
    (hvars : ∀ nm ∈ patternVars repl, nm ∈ patternVars pat) :
    ∀ x ∈ findPatternOccurrencesInExpr root pat,
      (instantiate repl x.bindings).isSome := by
  intro x hx
  obtain ⟨sub, _, hm⟩ := of_mem_findPatternOccurrencesInExpr root pat x hx
  exact instantiate_isSome repl x.bindings
    (fun nm hnm => patternMatch_binds pat sub [] x.bindings hm nm (hvars nm hnm))

theorem registryOccs_ok (rule : RewriteRule) (goal : Fact)
    (h1 : ∀ nm ∈ patternVars rule.rhs, nm ∈ patternVars rule.lhs)
    (h2 : ∀ nm ∈ patternVars rule.lhs, nm ∈ patternVars rule.rhs) :
    ∃ os, registryOccs rule goal = .ok os := by
  obtain ⟨a, ha⟩ := instOccs_ok .lhs rule.rhs
    (findPatternOccurrencesInExpr goal.lhs rule.lhs)
    (instantiate_total_of_balanced rule.lhs rule.rhs goal.lhs h1)
  obtain ⟨b, hb⟩ := instOccs_ok .rhs rule.rhs
    (findPatternOccurrencesInExpr goal.rhs rule.lhs)
    (instantiate_total_of_balanced rule.lhs rule.rhs goal.rhs h1)
  obtain ⟨cc, hc⟩ := instOccs_ok .lhs rule.lhs
    (findPatternOccurrencesInExpr goal.lhs rule.rhs)
    (instantiate_total_of_balanced rule.rhs rule.lhs goal.lhs h2)
  obtain ⟨d, hd⟩ := instOccs_ok .rhs rule.lhs
    (findPatternOccurrencesInExpr goal.rhs rule.rhs)
    (instantiate_total_of_balanced rule.rhs rule.lhs goal.rhs h2)
  refine ⟨a ++ b ++ cc ++ d, ?_⟩
  unfold registryOccs
  rw [ha, hb, hc, hd]
  rfl

theorem lookupRule_mem (rules : List (String × RewriteRule)) (name : String)
    (rule : RewriteRule) (h : lookupRule rules name = some rule) :
    ∃ nm, (nm, rule) ∈ rules := by
  unfold lookupRule at h
  cases hf : rules.find? (fun p => p.1 == name) with
  | none => rw [hf] at h; simp at h
  | some pair =>
      rw [hf] at h
      simp only [Option.map_some', Option.some.injEq] at h
      have hmem := List.mem_of_find?_eq_some hf
      obtain ⟨nm2, r2⟩ := pair
      simp only [] at h
      subst h
      exact ⟨nm2, hmem⟩

/-- With the balanced default registry, the candidate list always
builds without an instantiation error. -/
theorem rewriteOccurrences_balanced_ok (rules : List (String × RewriteRule))
    (hbal : rulesBalanced rules = true) (ctx : Context) (goal : Fact)
    (name : String) :
    ∃ occs, rewriteOccurrences rules ctx goal name = .ok occs ∧
      ∃ regPart, registryOccsOf rules goal name = .ok regPart ∧
        occs = contextOccsOf ctx goal name ++ regPart := by
  have hreg : ∃ regPart, registryOccsOf rules goal name = .ok regPart := by
    unfold registryOccsOf
    cases hl : lookupRule rules name with
    | none => exact ⟨[], rfl⟩
    | some rule =>
        obtain ⟨nm, hmem⟩ := lookupRule_mem rules name rule hl
        have hb := List.all_eq_true.1 hbal (nm, rule) hmem
        rw [Bool.and_eq_true] at hb
        exact registryOccs_ok rule goal
          (fun v hv => of_decide_eq_true (List.all_eq_true.1 hb.1 v hv))
          (fun v hv => of_decide_eq_true (List.all_eq_true.1 hb.2 v hv))
  obtain ⟨regPart, hregPart⟩ := hreg
  refine ⟨contextOccsOf ctx goal name ++ regPart, ?_, regPart, hregPart, rfl⟩
  unfold rewriteOccurrences
  rw [hregPart]
  rfl

/-- Every context-equality candidate points at a valid path of the
goal (its subterm is one side of the equality fact). -/
theorem contextOccs_path_valid (f goal : Fact) :
    ∀ occ ∈ contextOccs f goal, ∃ sub, getAtPathInFact goal occ.path = some sub := by
  intro occ hocc
  unfold contextOccs at hocc
  simp only [List.append_assoc, List.mem_append, List.mem_map] at hocc
  rcases hocc with ⟨p, hp, rfl⟩ | ⟨p, hp, rfl⟩ | ⟨p, hp, rfl⟩ | ⟨p, hp, rfl⟩
  · exact ⟨f.lhs, (mem_findOccurrencesInExpr goal.lhs f.lhs p).1 hp⟩
  · exact ⟨f.lhs, (mem_findOccurrencesInExpr goal.rhs f.lhs p).1 hp⟩
  · exact ⟨f.rhs, (mem_findOccurrencesInExpr goal.lhs f.rhs p).1 hp⟩
  · exact ⟨f.rhs, (mem_findOccurrencesInExpr goal.rhs f.rhs p).1 hp⟩

/-- Every registry candidate points at a valid path of the goal. -/
theorem registryOccs_path_valid (rule : RewriteRule) (goal : Fact)
    (os : List RewriteOcc) (h : registryOccs rule goal = .ok os) :
    ∀ occ ∈ os, ∃ sub, getAtPathInFact goal occ.path = some sub := by
  intro occ hocc
  unfold registryOccs at h
  cases ha : instOccs .lhs rule.rhs (findPatternOccurrencesInExpr goal.lhs rule.lhs) with
  | error m => rw [ha] at h; exact Except.noConfusion h
  | ok a =>
  rw [ha] at h
  cases hb : instOccs .rhs rule.rhs (findPatternOccurrencesInExpr goal.rhs rule.lhs) with
  | error m => rw [hb] at h; exact Except.noConfusion h
  | ok b =>
  rw [hb] at h
  cases hc : instOccs .lhs rule.lhs (findPatternOccurrencesInExpr goal.lhs rule.rhs) with
  | error m => rw [hc] at h; exact Except.noConfusion h
  | ok cc =>
  rw [hc] at h
  cases hd : instOccs .rhs rule.lhs (findPatternOccurrencesInExpr goal.rhs rule.rhs) with
  | error m => rw [hd] at h; exact Except.noConfusion h
  | ok d =>
  rw [hd] at h
  have h2 : (Except.ok (a ++ b ++ cc ++ d) :
      Except String (List RewriteOcc)) = Except.ok os := h
  cases h2
  simp only [List.append_assoc, List.mem_append] at hocc
  rcases hocc with hm | hm | hm | hm
  · obtain ⟨x, hx, r, _, rfl⟩ := mem_instOccs .lhs rule.rhs _ a ha occ hm
    obtain ⟨sub, hget, _⟩ := of_mem_findPatternOccurrencesInExpr goal.lhs rule.lhs x hx
    exact ⟨sub, hget⟩
  · obtain ⟨x, hx, r, _, rfl⟩ := mem_instOccs .rhs rule.rhs _ b hb occ hm
    obtain ⟨sub, hget, _⟩ := of_mem_findPatternOccurrencesInExpr goal.rhs rule.lhs x hx
    exact ⟨sub, hget⟩
  · obtain ⟨x, hx, r, _, rfl⟩ := mem_instOccs .lhs rule.lhs _ cc hc occ hm
    obtain ⟨sub, hget, _⟩ := of_mem_findPatternOccurrencesInExpr goal.lhs rule.rhs x hx
    exact ⟨sub, hget⟩
  · obtain ⟨x, hx, r, _, rfl⟩ := mem_instOccs .rhs rule.lhs _ d hd occ hm
    obtain ⟨sub, hget, _⟩ := of_mem_findPatternOccurrencesInExpr goal.rhs rule.rhs x hx
    exact ⟨sub, hget⟩

/-- Every candidate of the full list points at a valid path. -/
theorem rewriteOccurrences_path_valid (rules : List (String × RewriteRule))
    (ctx : Context) (goal : Fact) (name : String) (occs : List RewriteOcc)
    (h : rewriteOccurrences rules ctx goal name = .ok occs) :
    ∀ occ ∈ occs, ∃ sub, getAtPathInFact goal occ.path = some sub := by
  intro occ hocc
  unfold rewriteOccurrences at h
  cases hr : registryOccsOf rules goal name with
  | error m => rw [hr] at h; exact Except.noConfusion h
  | ok regPart =>
      rw [hr] at h
      have h2 : (Except.ok (contextOccsOf ctx goal name ++ regPart) :
          Except String (List RewriteOcc)) = Except.ok occs := h
      cases h2
      rcases List.mem_append.1 hocc with hm | hm
      · unfold contextOccsOf at hm
        cases hg : ctx.getFact name with
        | none => simp [hg] at hm
        | some f =>
            simp only [hg] at hm
            by_cases hk : f.kind == FactKind.eq
            · rw [if_pos hk] at hm
              exact contextOccs_path_valid f goal occ hm
            · rw [if_neg hk] at hm
              simp at hm
      · unfold registryOccsOf at hr
        cases hl : lookupRule rules name with
        | none =>
            rw [hl] at hr
            cases hr
            simp at hm
        | some rule =>
            rw [hl] at hr
            exact registryOccs_path_valid rule goal regPart hr occ hm

theorem setAtPathInFact_isSome (f : Fact) (p : FactPath) (r sub : Expr)
    (h : getAtPathInFact f p = some sub) :
    ∃ f', setAtPathInFact f p r = some f' := by
  obtain ⟨side, steps⟩ := p
  cases side with
  | lhs =>
      obtain ⟨e', he'⟩ := setAt_isSome_of_getAt f.lhs steps sub r h
      exact ⟨{ f with lhs := e' }, by unfold setAtPathInFact; simp [he']⟩
  | rhs =>
      obtain ⟨e', he'⟩ := setAt_isSome_of_getAt f.rhs steps sub r h
      exact ⟨{ f with rhs := e' }, by unfold setAtPathInFact; simp [he']⟩

theorem setAtPathInFact_props (f : Fact) (p : FactPath) (r : Expr) (f' : Fact)
    (h : setAtPathInFact f p r = some f') :
    f'.kind = f.kind ∧
    setAt (f.sideExpr p.side) p.steps r = some (f'.sideExpr p.side) ∧
    ∀ sd : Side, sd ≠ p.side → f'.sideExpr sd = f.sideExpr sd := by
  obtain ⟨side, steps⟩ := p
  cases side with
  | lhs =>
      unfold setAtPathInFact at h
      simp only [] at h
      cases hset : setAt f.lhs steps r with
      | none => rw [hset] at h; simp at h
      | some e' =>
          rw [hset] at h
          simp only [Option.map_some', Option.some.injEq] at h
          subst h
          refine ⟨rfl, hset, ?_⟩
          intro sd hsd
          cases sd with
          | lhs => exact absurd rfl hsd
          | rhs => rfl
  | rhs =>
      unfold setAtPathInFact at h
      simp only [] at h
      cases hset : setAt f.rhs steps r with
      | none => rw [hset] at h; simp at h
      | some e' =>
          rw [hset] at h
          simp only [Option.map_some', Option.some.injEq] at h
          subst h
          refine ⟨rfl, hset, ?_⟩
          intro sd hsd
          cases sd with
          | lhs => rfl
          | rhs => exact absurd rfl hsd

/-- C1: for the fixed registry, the rewrite command builds one ordered
candidate list (context-equality occurrences of the equality's lhs then
rhs, goal left side before right, pre-order within each side, followed
by registry-rule pattern occurrences in the same order — the shape of
`rewriteOccurrences`); it fails with no mutation when the name resolves
to neither a context equality nor a registry rule, or when the 1-based
index exceeds the number of candidates; on success it replaces exactly
the one subterm at candidate k: the subterm at the chosen path becomes
the replacement, every parallel path (same side, prefix-incomparable)
reads unchanged, and the whole other side of the goal is untouched. -/
theorem rewrite_occurrence_exact (s : State) (c : CmdRewrite) :
    (resolvesAsContextEq s.context c.equalityName = false →
      lookupRule DEFAULT_REWRITE_RULES c.equalityName = none →
      cmd_rewrite DEFAULT_REWRITE_RULES s c = .ok (false, s)) ∧
    ∃ occs, rewriteOccurrences DEFAULT_REWRITE_RULES s.context s.goal
        c.equalityName = .ok occs ∧
      ((resolvesAsContextEq s.context c.equalityName = true ∨
          (lookupRule DEFAULT_REWRITE_RULES c.equalityName).isSome = true) →
        occs.length < occIndex c.occurrence →
        cmd_rewrite DEFAULT_REWRITE_RULES s c = .ok (false, s)) ∧
      ((resolvesAsContextEq s.context c.equalityName = true ∨
          (lookupRule DEFAULT_REWRITE_RULES c.equalityName).isSome = true) →
        ∀ chosen, occs.get? (occIndex c.occurrence - 1) = some chosen →
        ∃ g', setAtPathInFact s.goal chosen.path chosen.replaceWith = some g' ∧
          cmd_rewrite DEFAULT_REWRITE_RULES s c = .ok (true, { s with goal := g' }) ∧
          getAtPathInFact g' chosen.path = some chosen.replaceWith ∧
          (∀ q : FactPath, q.side = chosen.path.side →
            ¬ chosen.path.steps <+: q.steps → ¬ q.steps <+: chosen.path.steps →
            getAtPathInFact g' q = getAtPathInFact s.goal q) ∧
          (∀ q : FactPath, q.side ≠ chosen.path.side →
            getAtPathInFact g' q = getAtPathInFact s.goal q)) := by
  refine ⟨?_, ?_⟩
  · intro hres hreg
    unfold cmd_rewrite
    rw [hres, hreg]
    rfl
  · obtain ⟨occs, hoccs, regPart, hreg2, hdecomp⟩ :=
      rewriteOccurrences_balanced_ok DEFAULT_REWRITE_RULES
        default_rules_balanced s.context s.goal c.equalityName
    have hcondOf : (resolvesAsContextEq s.context c.equalityName = true ∨
        (lookupRule DEFAULT_REWRITE_RULES c.equalityName).isSome = true) →
        (!(resolvesAsContextEq s.context c.equalityName) &&
          (lookupRule DEFAULT_REWRITE_RULES c.equalityName).isNone) = false := by
      rintro (h | h)
      · simp [h]
      · cases hv : lookupRule DEFAULT_REWRITE_RULES c.equalityName with
        | none => rw [hv] at h; simp at h
        | some r => simp [hv]
    refine ⟨occs, hoccs, ?_, ?_⟩
    · intro hresolved hlen
      have hc2 := hcondOf hresolved
      unfold cmd_rewrite
      rw [hc2]
      simp only [Bool.false_eq_true, if_false, hoccs]
      rw [if_pos hlen]
    · intro hresolved chosen hch
      have hc2 := hcondOf hresolved
      have hlt : occIndex c.occurrence - 1 < occs.length := by
        obtain ⟨hh, _⟩ := List.get?_eq_some.1 hch
        exact hh
      have hpos := occIndex_pos c.occurrence
      have hnotlt : ¬(occs.length < occIndex c.occurrence) := by omega
      have hmem : chosen ∈ occs := List.get?_mem hch
      obtain ⟨sub, hget⟩ := rewriteOccurrences_path_valid DEFAULT_REWRITE_RULES
        s.context s.goal c.equalityName occs hoccs chosen hmem
      obtain ⟨g', hg'⟩ :=
        setAtPathInFact_isSome s.goal chosen.path chosen.replaceWith sub hget
      obtain ⟨hkind, hsetside, hother⟩ :=
        setAtPathInFact_props s.goal chosen.path chosen.replaceWith g' hg'
      refine ⟨g', hg', ?_, ?_, ?_, ?_⟩
      · unfold cmd_rewrite
        rw [hc2]
        simp only [Bool.false_eq_true, if_false, hoccs]
        rw [if_neg hnotlt, hch]
        simp only [hg']
      · unfold getAtPathInFact
        exact getAt_setAt_self (s.goal.sideExpr chosen.path.side)
          chosen.path.steps chosen.replaceWith (g'.sideExpr chosen.path.side) hsetside
      · intro q hqs hnp hnq
        unfold getAtPathInFact
        rw [hqs]
        exact getAt_setAt_disjoint (s.goal.sideExpr chosen.path.side)
          chosen.path.steps chosen.replaceWith (g'.sideExpr chosen.path.side)
          q.steps hsetside hnp hnq
      · intro q hqs
        unfold getAtPathInFact
        rw [hother q.side hqs]

/-- Witness for the rewrite theorem: on goal `conj(conj(z)) = z`, the
registry rule `conj_inv` at the default occurrence rewrites exactly the
left-hand side root, yielding the goal `z = z`. -/
theorem rewrite_occurrence_exact_witness :
    cmd_rewrite DEFAULT_REWRITE_RULES
        ⟨⟨.eq, fn1 "conj" (fn1 "conj" (.var "z")), .var "z"⟩, [], false⟩
        ⟨none, "conj_inv"⟩ =
      .ok (true, ⟨⟨.eq, .var "z", .var "z"⟩, [], false⟩) := by
  obtain ⟨occs, hoccs, _, hsel⟩ := (rewrite_occurrence_exact
    ⟨⟨.eq, fn1 "conj" (fn1 "conj" (.var "z")), .var "z"⟩, [], false⟩
    ⟨none, "conj_inv"⟩).2
  have hL : rewriteOccurrences DEFAULT_REWRITE_RULES []
      (⟨.eq, fn1 "conj" (fn1 "conj" (.var "z")), .var "z"⟩ : Fact) "conj_inv" =
      .ok [⟨⟨.lhs, []⟩, .var "z"⟩,
        ⟨⟨.lhs, []⟩, fn1 "conj" (fn1 "conj" (fn1 "conj" (fn1 "conj" (.var "z"))))⟩,
        ⟨⟨.lhs, [0]⟩, fn1 "conj" (fn1 "conj" (fn1 "conj" (.var "z")))⟩,
        ⟨⟨.lhs, [0, 0]⟩, fn1 "conj" (fn1 "conj" (.var "z"))⟩,
        ⟨⟨.rhs, []⟩, fn1 "conj" (fn1 "conj" (.var "z"))⟩] := by rfl
  rw [hoccs] at hL
  have hLeq : occs = [⟨⟨.lhs, []⟩, .var "z"⟩,
      ⟨⟨.lhs, []⟩, fn1 "conj" (fn1 "conj" (fn1 "conj" (fn1 "conj" (.var "z"))))⟩,
      ⟨⟨.lhs, [0]⟩, fn1 "conj" (fn1 "conj" (fn1 "conj" (.var "z")))⟩,
      ⟨⟨.lhs, [0, 0]⟩, fn1 "conj" (fn1 "conj" (.var "z"))⟩,
      ⟨⟨.rhs, []⟩, fn1 "conj" (fn1 "conj" (.var "z"))⟩] := by
    cases hL
    rfl
  subst hLeq
  obtain ⟨g', hg', hcmd, _, _, _⟩ := hsel (Or.inr rfl) ⟨⟨.lhs, []⟩, .var "z"⟩ rfl
  have hgval : g' = (⟨.eq, .var "z", .var "z"⟩ : Fact) := by
    have hset : setAtPathInFact
        (⟨.eq, fn1 "conj" (fn1 "conj" (.var "z")), .var "z"⟩ : Fact)
        ⟨.lhs, []⟩ (.var "z") = some ⟨.eq, .var "z", .var "z"⟩ := by rfl
    rw [hset] at hg'
    exact (Option.some.injEq _ _ ▸ hg').symm
  rw [hcmd, hgval]

/-- The `(goal, context)` state of the `example_contradiction.ts`
Prover (that file's variant has no `explicitCompletion` flag). -/
structure ECState where
  goal : Fact
  context : Context
deriving DecidableEq, Repr

mutual
/-- The traversal inside `collectVarNames`, preserving first-insertion
order (a JavaScript `Set`). -/
def collectVarsExpr (acc : List String) : Expr → List String
  | .var n => if acc.contains n then acc else acc ++ [n]
  | .const _ => acc
  | .op _ args => collectVarsArgs acc args
  | .func _ args => collectVarsArgs acc args

/-- The `forEach` of `collectVarNames` over argument lists. -/
def collectVarsArgs (acc : List String) : ExprList → List String
  | .nil => acc
  | .cons a tl => collectVarsArgs (collectVarsExpr acc a) tl
end

/-- `collectVarNames` from `example_contradiction.ts`: variable names of
a fact, left side first, in first-occurrence order. -/
def collectVarNames (f : Fact) : List String :=
  collectVarsExpr (collectVarsExpr [] f.lhs) f.rhs

/-- Naive substring test (`String.includes`). -/
def strContains (s pat : String) : Bool :=
  (List.range (s.data.length + 1)).any (fun i => pat.data.isPrefixOf (s.data.drop i))

/-- The external `math.evaluate` oracle of the example file's numeric
fallback: a difference string and a variable scope produce a float (or
a thrown error). -/
abbrev EvalOracle := String → List (String × Nat) → Except String Float

/-- The numeric probing loop of the example file's `_cmd_duoneng`:
three attempts with every variable set to `2 + attempt`; a probe above
`1e-9` in absolute value refutes, otherwise the goal is accepted. -/
def ec_probe (evalO : EvalOracle) (diff : String) (vars : List String) :
    List Nat → Except String Bool
  | [] => .ok true
  | a :: rest => do
      let ev ← evalO diff (vars.map (fun v => (v, 2 + a)))
      if Float.abs ev > 1e-9 then return false
      else ec_probe evalO diff vars rest

/-- `_cmd_buli` of `example_contradiction.ts`: unlike the
`prover-core.ts` version it only requires the component to occur inside
the hypothesis's left side, and copies the hypothesis's right side into
the new fact. `.error` models the `addFact` collision throw. -/
def ec_cmd_buli (st : ECState) (c : CmdBuli) : Except String (Bool × ECState) :=
  match st.context.getFact c.hypothesis with
  | none => .ok (false, st)
  | some hyp =>
      if hyp.kind != .neq then .ok (false, st)
      else if (findOccurrencesInExpr hyp.lhs c.component).length == 0 then .ok (false, st)
      else
        match st.context.addFact c.newName ⟨.neq, c.component, hyp.rhs⟩ with
        | .error m => .error m
        | .ok ctx => .ok (true, { st with context := ctx })

/-- `_cmd_duoneng` of `example_contradiction.ts`: same denominator
validation as the core version, a single `math.simplify` call, and on a
non-zero print a numeric fallback (skipped whenever the encoded string
mentions an opaque atom marker). All throws inside the `try` are caught
as failure. -/
def ec_cmd_duoneng (hashFn : String → String) (oracle : SimpOracle)
    (evalO : EvalOracle) (st : ECState) (c : CmdDuoneng) :
    Except String (Bool × ECState) :=
  if st.goal.kind != .eq then .ok (false, st)
  else
    let needed := ((collectDenominatorsInExpr st.goal.lhs ++
      collectDenominatorsInExpr st.goal.rhs).filter (fun d => !(isConstantExpr d)))
    let supplied := dedupFirst (c.denomProofs.getD [])
    if !(supplied.all (fun name => validDenomProof st.context name)) then .ok (false, st)
    else if !(needed.all (fun d => supplied.any (fun name => matchesDenom st.context name d))) then
      .ok (false, st)
    else
      let diff := duonengDiff hashFn st.goal
      match (do
        let sStr ← oracle diff
        if sStr == "0" || sStr == "0.0" then return true
        else if strContains diff "F_CONJ" || strContains diff "F_RE" ||
            strContains diff "F_IM" || strContains diff "F_SQNORM" then
          return false
        else ec_probe evalO diff (collectVarNames st.goal) [0, 1, 2] :
          Except String Bool) with
      | .error _ => .ok (false, st)
      | .ok b => .ok (b, st)

/-- `_cmd_fanzheng` of `example_contradiction.ts` (identical to the core
version, on the flag-less state). -/
def ec_cmd_fanzheng (st : ECState) (c : CmdFanzheng) : Except String (Bool × ECState) :=
  match st.context.getFact c.hypName with
  | none => .ok (false, st)
  | some h =>
      if h.kind != .neq then .ok (false, st)
      else if st.goal.kind != .neq then .ok (false, st)
      else
        .ok (true,
          ⟨⟨.eq, h.lhs, h.rhs⟩,
            st.context.setFact c.hypName ⟨.eq, st.goal.lhs, st.goal.rhs⟩⟩)

/-- `_cmd_rewrite` of `example_contradiction.ts` (identical candidate
construction to the core version). -/
def ec_cmd_rewrite (rules : List (String × RewriteRule)) (st : ECState)
    (c : CmdRewrite) : Except String (Bool × ECState) :=
  if !(resolvesAsContextEq st.context c.equalityName) &&
      (lookupRule rules c.equalityName).isNone then .ok (false, st)
  else
    match rewriteOccurrences rules st.context st.goal c.equalityName with
    | .error m => .error m
    | .ok occs =>
        let k := occIndex c.occurrence
        if occs.length < k then .ok (false, st)
        else
          match occs.get? (k - 1) with
          | none => .error "occurrence index out of range"
          | some chosen =>
              match setAtPathInFact st.goal chosen.path chosen.replaceWith with
              | none => .error "invalid path"
              | some g => .ok (true, { st with goal := g })

/-- `_cmd_reverse` of `example_contradiction.ts`. -/
def ec_cmd_reverse (st : ECState) (c : CmdReverse) : Except String (Bool × ECState) :=
  match st.context.getFact c.oldName with
  | none => .ok (false, st)
  | some f =>
      if f.kind != .eq then .ok (false, st)
      else
        match st.context.addFact c.newName ⟨.eq, f.rhs, f.lhs⟩ with
        | .error m => .error m
        | .ok ctx => .ok (true, { st with context := ctx })

/-- `_cmd_certain` of `example_contradiction.ts`: like the core version
but it only reports the oracle verdict; nothing marks the frame. -/
def ec_cmd_certain (oracle : SimpOracle) (st : ECState) : Except String (Bool × ECState) :=
  if st.goal.kind != .eq then .ok (false, st)
  else if !(isConstantExpr st.goal.lhs) || !(isConstantExpr st.goal.rhs) then .ok (false, st)
  else
    match oracle ("(" ++ exprToMathJSStringReal st.goal.lhs ++ ") - (" ++
        exprToMathJSStringReal st.goal.rhs ++ ")") with
    | .error _ => .ok (false, st)
    | .ok sStr => .ok (sStr == "0" || sStr == "0.0", st)

/-- `runSingleCommandOnState` / `_runCommand` of
`example_contradiction.ts`: plain dispatch (the example Prover has no
completion gate). -/
def ec_runCommand (rules : List (String × RewriteRule)) (hashFn : String → String)
    (oracle : SimpOracle) (evalO : EvalOracle) (st : ECState) (cmd : Command) :
    Except String (Bool × ECState) :=
  match cmd with
  | .buli c => ec_cmd_buli st c
  | .duoneng c => ec_cmd_duoneng hashFn oracle evalO st c
  | .fanzheng c => ec_cmd_fanzheng st c
  | .rewrite c => ec_cmd_rewrite rules st c
  | .reverse c => ec_cmd_reverse st c
  | .certain => ec_cmd_certain oracle st

/-- `_checkGoalProved` of `example_contradiction.ts`: purely structural
(the example Prover has no explicit-completion flag). -/
def ec_checkGoalProved (ctx : Context) (goal : Fact) : Bool :=
  match goal.kind with
  | .eq =>
      if exprEquals goal.lhs goal.rhs then true
      else (Context.keys ctx).any (fun k =>
        match Context.getFact ctx k with
        | some f => f.kind == .eq && exprEquals f.lhs goal.lhs &&
            exprEquals f.rhs goal.rhs
        | none => false)
  | .neq =>
      (Context.keys ctx).any (fun k =>
        match Context.getFact ctx k with
        | some f => f.kind == .neq && exprEquals f.lhs goal.lhs &&
            exprEquals f.rhs goal.rhs
        | none => false)

/-- `FrameState` from `example_contradiction.ts`; the string ids
`frame_${counter}` are modelled by their counter value. -/
structure FrameState where
  id : Nat
  name : String
  goal : Fact
  context : Context
  commands : List Command
  completed : Bool
  parentFrameId : Option Nat
deriving DecidableEq, Repr

/-- `RecordKind` of the chronological history. -/
inductive RecordKind where
  | start_frame | cmd | finalize_frame
deriving DecidableEq, Repr

/-- The `resolved` snapshot attached to a command record (a record of
optional fields in the source). -/
structure Resolved where
  preGoal : Option Fact := none
  newName : Option String := none
  component : Option Expr := none
  hypothesisName : Option String := none
  hypothesisFact : Option Fact := none
  hypName : Option String := none
  hypFactBefore : Option Fact := none
  goalBefore : Option Fact := none
  denomProofs : Option (List (String × Option Fact)) := none
  equalityName : Option String := none
  equalitySnapshot : Option Fact := none
  rewriteRule : Option RewriteRule := none
  oldName : Option String := none
  oldFact : Option Fact := none
deriving DecidableEq, Repr

/-- `CommandRecord` of the flat chronological history. `ts`
(`Date.now()`) is modelled as `0`; the serializer never reads it. -/
structure CommandRecord where
  kind : RecordKind
  frameId : Nat
  frameName : Option String := none
  parentFrameId : Option Nat := none
  goal : Option Fact := none
  cmd : Option Command := none
  resolved : Option Resolved := none
  ts : Nat := 0
deriving DecidableEq, Repr

/-- `ProofSession` from `example_contradiction.ts`. -/
structure ProofSession where
  globalContext : Context
  frames : List (Nat × FrameState)
  counter : Nat
  rewriteRules : List (String × RewriteRule)
  commandHistory : List CommandRecord
deriving DecidableEq, Repr

/-- `this.frames.get(id)`. -/
def framesGet (fs : List (Nat × FrameState)) (id : Nat) : Option FrameState :=
  (fs.find? (fun p => p.1 == id)).map (fun p => p.2)

/-- `this.frames.set(id, fr)` (a `Map.set` keeps an existing key's
insertion position). -/
def framesSet (fs : List (Nat × FrameState)) (id : Nat) (fr : FrameState) :
    List (Nat × FrameState) :=
  if (fs.find? (fun p => p.1 == id)).isSome then
    fs.map (fun p => if p.1 == id then (p.1, fr) else p)
  else fs ++ [(id, fr)]

/-- Outcome of a session operation: `{ok: true}`, `{ok: false, message}`
or an uncaught exception. -/
inductive OpOutcome where
  | ok
  | fail (message : String)
  | thrown (message : String)
deriving DecidableEq, Repr

/-- A session operation's result: the session state afterwards (any
mutations made before a throw included) and the outcome. -/
structure OpResult where
  sess : ProofSession
  outcome : OpOutcome
deriving DecidableEq, Repr

/-- `startHave` from `example_contradiction.ts`: allocate the next
frame id, snapshot a clone of the parent's (or, when the parent id is
absent or unknown, the global) context, register the frame and append a
`start_frame` record. Never fails. -/
def startHave (sess : ProofSession) (name : String) (goal : Fact)
    (parentFrameId : Option Nat) : Nat × ProofSession :=
  let id := sess.counter + 1
  let parentCtx := match parentFrameId with
    | some p =>
        match framesGet sess.frames p with
        | some fr => fr.context
        | none => sess.globalContext.clone
    | none => sess.globalContext.clone
  let ctxClone := parentCtx.clone
  let frame : FrameState := ⟨id, name, goal, ctxClone, [], false, parentFrameId⟩
  let record : CommandRecord :=
    { kind := .start_frame, frameId := id, frameName := some name,
      parentFrameId := parentFrameId, goal := some goal }
  (id,
    { sess with
      counter := id
      frames := framesSet sess.frames id frame
      commandHistory := sess.commandHistory ++ [record] })

/-- The pre-execution `resolved` snapshot of `addCommand`; `.error`
carries the early `{ok: false, message}` returns for missing facts. -/
def snapshotResolved (frame : FrameState) (rules : List (String × RewriteRule))
    (cmd : Command) : Except String Resolved :=
  let base : Resolved := { preGoal := some frame.goal }
  match cmd with
  | .buli c =>
      match frame.context.getFact c.hypothesis with
      | none => .error ("hypothesis not found: " ++ c.hypothesis)
      | some hyp =>
          .ok
            { base with
              newName := some c.newName
              component := some c.component
              hypothesisName := some c.hypothesis
              hypothesisFact := some hyp }
  | .fanzheng c =>
      match frame.context.getFact c.hypName with
      | none => .error ("hypothesis not found: " ++ c.hypName)
      | some hyp =>
          .ok
            { base with
              hypName := some c.hypName
              hypFactBefore := some hyp
              goalBefore := some frame.goal }
  | .duoneng c =>
      .ok
        { base with
          denomProofs :=
            some ((c.denomProofs.getD []).map
              (fun n => (n, frame.context.getFact n))) }
  | .rewrite c =>
      match frame.context.getFact c.equalityName with
      | some f =>
          if f.kind == .eq then
            .ok
              { base with
                equalityName := some c.equalityName
                equalitySnapshot := some f }
          else
            match lookupRule rules c.equalityName with
            | some rule =>
                .ok
                  { base with
                    equalityName := some c.equalityName
                    rewriteRule := some rule }
            | none => .ok { base with equalityName := some c.equalityName }
      | none =>
          match lookupRule rules c.equalityName with
          | some rule =>
              .ok
                { base with
                  equalityName := some c.equalityName
                  rewriteRule := some rule }
          | none => .ok { base with equalityName := some c.equalityName }
  | .reverse c =>
      match frame.context.getFact c.oldName with
      | none => .error ("old equality not found: " ++ c.oldName)
      | some f =>
          .ok
            { base with
              oldName := some c.oldName
              oldFact := some f
              newName := some c.newName }
  | .certain => .ok { base with goalBefore := some frame.goal }

/-- `addCommand` from `example_contradiction.ts`. The runner receives
`{goal: frame.goal, context: frame.context}`: context mutations write
through the shared reference; `再写` mutates the goal fact in place (so
its new goal is visible through `frame.goal`), while `反证` rebinds
`state.goal` to a fresh object, so the swapped goal is lost to the
frame — reflected in the `newGoal` selection below. -/
def addCommand (rules : List (String × RewriteRule)) (hashFn : String → String)
    (oracle : SimpOracle) (evalO : EvalOracle) (sess : ProofSession)
    (frameId : Nat) (cmd : Command) : OpResult :=
  match framesGet sess.frames frameId with
  | none => ⟨sess, .fail "frame not found"⟩
  | some frame =>
      if frame.completed then ⟨sess, .fail "frame already completed"⟩
      else
        match snapshotResolved frame rules cmd with
        | .error m => ⟨sess, .fail m⟩
        | .ok resolved =>
            match ec_runCommand rules hashFn oracle evalO ⟨frame.goal, frame.context⟩ cmd with
            | .error m => ⟨sess, .thrown m⟩
            | .ok (success, st) =>
                let newGoal := match cmd with
                  | .fanzheng _ => frame.goal
                  | _ => st.goal
                let frame1 := { frame with goal := newGoal, context := st.context }
                if !success then
                  ⟨{ sess with frames := framesSet sess.frames frameId frame1 },
                        .fail "command failed"⟩
                else
                  let record : CommandRecord :=
                    { kind := .cmd, frameId := frameId, cmd := some cmd,
                      resolved := some resolved }
                  let frame2 := { frame1 with commands := frame1.commands ++ [cmd] }
                  ⟨{ sess with
                     frames := framesSet sess.frames frameId frame2
                     commandHistory := sess.commandHistory ++ [record] }, .ok⟩

/-- `finalize` from `example_contradiction.ts`: goal-completion against
the frame's own context, a `finalize_frame` record (pushed before the
parent lookup, as in the source), promotion of `name → goal` into the
parent's or the global context (`addFact` collision throws), then the
permanent `completed` mark. The `pid = frameId` branch reflects that in
the source `parent` and `frame` would be the same object. -/
def finalize (sess : ProofSession) (frameId : Nat) : OpResult :=
  match framesGet sess.frames frameId with
  | none => ⟨sess, .fail "frame not found"⟩
  | some frame =>
      if frame.completed then ⟨sess, .fail "frame already completed"⟩
      else if !(ec_checkGoalProved frame.context frame.goal) then
        ⟨sess, .fail "goal not yet proved"⟩
      else
        let record : CommandRecord :=
          { kind := .finalize_frame, frameId := frameId,
            frameName := some frame.name, goal := some frame.goal }
        let sess1 := { sess with commandHistory := sess.commandHistory ++ [record] }
        match frame.parentFrameId with
        | some pid =>
            if pid == frameId then
              match frame.context.addFact frame.name frame.goal with
              | .error m => ⟨sess1, .thrown m⟩
              | .ok pctx =>
                  let frame2 := { frame with context := pctx, completed := true }
                  ⟨{ sess1 with frames := framesSet sess1.frames frameId frame2 },
                        .ok⟩
            else
              match framesGet sess1.frames pid with
              | none => ⟨sess1, .fail "parent frame not found"⟩
              | some parent =>
                  match parent.context.addFact frame.name frame.goal with
                  | .error m => ⟨sess1, .thrown m⟩
                  | .ok pctx =>
                      let parent2 := { parent with context := pctx }
                      let frame2 := { frame with completed := true }
                      let fs2 := framesSet (framesSet sess1.frames pid parent2)
                        frameId frame2
                      ⟨{ sess1 with frames := fs2 }, .ok⟩
        | none =>
            match sess1.globalContext.addFact frame.name frame.goal with
            | .error m => ⟨sess1, .thrown m⟩
            | .ok gctx =>
                let frame2 := { frame with completed := true }
                ⟨{ sess1 with
                   globalContext := gctx
                   frames := framesSet sess1.frames frameId frame2 }, .ok⟩

/-- `addGlobalFact` from `example_contradiction.ts`. -/
def addGlobalFact (sess : ProofSession) (name : String) (fact : Fact)
    (overwrite : Bool) : OpResult :=
  if !overwrite && sess.globalContext.has name then
    ⟨sess, .fail ("global fact already present: " ++ name)⟩
  else if overwrite then
    ⟨{ sess with globalContext := sess.globalContext.setFact name fact }, .ok⟩
  else
    match sess.globalContext.addFact name fact with
    | .error m => ⟨sess, .thrown m⟩
    | .ok g => ⟨{ sess with globalContext := g }, .ok⟩

/-- The public state-changing operations of a session. -/
inductive SessionOp where
  | startHave (name : String) (goal : Fact) (parentFrameId : Option Nat)
  | addCommand (frameId : Nat) (cmd : Command)
  | finalize (frameId : Nat)
  | addGlobalFact (name : String) (fact : Fact) (overwrite : Bool)
deriving DecidableEq, Repr

/-- Run one operation for its state effect. -/
def runOp (rules : List (String × RewriteRule)) (hashFn : String → String)
    (oracle : SimpOracle) (evalO : EvalOracle) (sess : ProofSession) :
    SessionOp → OpResult
  | .startHave name goal p => ⟨(startHave sess name goal p).2, .ok⟩
  | .addCommand fid cmd => addCommand rules hashFn oracle evalO sess fid cmd
  | .finalize fid => finalize sess fid
  | .addGlobalFact n f ow => addGlobalFact sess n f ow

/-- Run a list of operations for their state effects. -/
def runOps (rules : List (String × RewriteRule)) (hashFn : String → String)
    (oracle : SimpOracle) (evalO : EvalOracle) (sess : ProofSession)
    (ops : List SessionOp) : ProofSession :=
  ops.foldl (fun s op => (runOp rules hashFn oracle evalO s op).sess) sess

theorem find?_overwrite_self : ∀ (fs : List (Nat × FrameState)) (id : Nat)
    (fr : FrameState), (fs.find? (fun p => p.1 == id)).isSome = true →
    (fs.map (fun p => if p.1 == id then (p.1, fr) else p)).find?
      (fun p => p.1 == id) = some (id, fr) := by
  intro fs id fr h
  induction fs with
  | nil => simp [List.find?] at h
  | cons hd tl ih =>
      by_cases hk : (hd.1 == id) = true
      · rw [List.map_cons, if_pos hk]
        have hk' : ((hd.1, fr).1 == id) = true := hk
        rw [List.find?_cons_of_pos (p := fun (q : Nat × FrameState) => q.1 == id) _ hk']
        have hid : hd.1 = id := by simpa using hk
        rw [hid]
      · rw [List.map_cons, if_neg hk]
        rw [List.find?_cons_of_neg (p := fun (q : Nat × FrameState) => q.1 == id) _ hk]
        apply ih
        rw [List.find?_cons_of_neg (p := fun (q : Nat × FrameState) => q.1 == id) _ hk] at h
        exact h

theorem find?_overwrite_ne : ∀ (fs : List (Nat × FrameState)) (id id2 : Nat)
    (fr : FrameState), id ≠ id2 →
    (fs.map (fun p => if p.1 == id then (p.1, fr) else p)).find?
      (fun p => p.1 == id2) = fs.find? (fun p => p.1 == id2) := by
  intro fs id id2 fr hne
  induction fs with
  | nil => rfl
  | cons hd tl ih =>
      by_cases hkid : (hd.1 == id) = true
      · rw [List.map_cons, if_pos hkid]
        have hk2 : ¬((hd.1 == id2) = true) := by
          simp only [beq_iff_eq] at hkid ⊢
          rw [hkid]
          exact hne
        have hk2' : ¬(((hd.1, fr)).1 == id2) = true := hk2
        rw [List.find?_cons_of_neg (p := fun (q : Nat × FrameState) => q.1 == id2) _ hk2']
        rw [List.find?_cons_of_neg (p := fun (q : Nat × FrameState) => q.1 == id2) _ hk2, ih]
      · rw [List.map_cons, if_neg hkid]
        by_cases hk : (hd.1 == id2) = true
        · rw [List.find?_cons_of_pos (p := fun (q : Nat × FrameState) => q.1 == id2) _ hk,
            List.find?_cons_of_pos (p := fun (q : Nat × FrameState) => q.1 == id2) _ hk]
        · rw [List.find?_cons_of_neg (p := fun (q : Nat × FrameState) => q.1 == id2) _ hk,
            List.find?_cons_of_neg (p := fun (q : Nat × FrameState) => q.1 == id2) _ hk, ih]

theorem framesGet_framesSet_self (fs : List (Nat × FrameState)) (id : Nat)
    (fr : FrameState) : framesGet (framesSet fs id fr) id = some fr := by
  unfold framesSet
  by_cases hmem : (fs.find? (fun p => p.1 == id)).isSome
  · rw [if_pos hmem]
    unfold framesGet
    rw [find?_overwrite_self fs id fr hmem]
    rfl
  · rw [if_neg hmem]
    unfold framesGet
    rw [List.find?_append]
    rw [Option.not_isSome_iff_eq_none] at hmem
    rw [hmem]
    simp [List.find?]

theorem framesGet_framesSet_ne (fs : List (Nat × FrameState)) (id id2 : Nat)
    (fr : FrameState) (hne : id ≠ id2) :
    framesGet (framesSet fs id fr) id2 = framesGet fs id2 := by
  unfold framesSet
  by_cases hmem : (fs.find? (fun p => p.1 == id)).isSome
  · rw [if_pos hmem]
    unfold framesGet
    rw [find?_overwrite_ne fs id id2 fr hne]
  · rw [if_neg hmem]
    unfold framesGet
    rw [List.find?_append]
    have h2 : List.find? (fun p => p.1 == id2) [(id, fr)] = none := by
      have : ((id, fr).1 == id2) = false := by simpa using hne
      simp [List.find?, this]
    rw [h2]
    cases fs.find? (fun p => p.1 == id2) <;> rfl

theorem mem_of_framesGet (fs : List (Nat × FrameState)) (id : Nat)
    (fr : FrameState) (h : framesGet fs id = some fr) : (id, fr) ∈ fs := by
  unfold framesGet at h
  cases hf : fs.find? (fun p => p.1 == id) with
  | none => rw [hf] at h; simp at h
  | some pair =>
      rw [hf] at h
      simp only [Option.map_some', Option.some.injEq] at h
      have hmem := List.mem_of_find?_eq_some hf
      have hkey := List.find?_some hf
      simp only [beq_iff_eq] at hkey
      obtain ⟨k, v⟩ := pair
      simp only [] at hkey h
      rw [hkey] at hmem
      rw [h] at hmem
      exact hmem

theorem mem_framesSet (fs : List (Nat × FrameState)) (id : Nat)
    (fr : FrameState) : ∀ p ∈ framesSet fs id fr, p.1 = id ∨ ∃ q ∈ fs, p.1 = q.1 := by
  intro p hp
  unfold framesSet at hp
  by_cases hmem : (fs.find? (fun q => q.1 == id)).isSome
  · rw [if_pos hmem] at hp
    rw [List.mem_map] at hp
    obtain ⟨q, hq, hpq⟩ := hp
    by_cases hk : (q.1 == id) = true
    · rw [if_pos hk] at hpq
      left
      rw [← hpq]
      simpa using hk
    · rw [if_neg hk] at hpq
      exact Or.inr ⟨q, hq, by rw [← hpq]⟩
  · rw [if_neg hmem] at hp
    rcases List.mem_append.1 hp with hl | hr
    · exact Or.inr ⟨p, hl, rfl⟩
    · left
      simp at hr
      rw [hr]

theorem addGlobalFact_shape (sess : ProofSession) (n : String) (f : Fact)
    (ow : Bool) :
    (addGlobalFact sess n f ow).sess.frames = sess.frames ∧
    (addGlobalFact sess n f ow).sess.counter = sess.counter := by
  unfold addGlobalFact
  by_cases h1 : (!ow && sess.globalContext.has n) = true
  · rw [if_pos h1]
    exact ⟨rfl, rfl⟩
  · rw [if_neg h1]
    by_cases h2 : ow = true
    · rw [if_pos h2]
      exact ⟨rfl, rfl⟩
    · rw [if_neg h2]
      cases sess.globalContext.addFact n f <;> exact ⟨rfl, rfl⟩

theorem addCommand_not_found (rules : List (String × RewriteRule))
    (hashFn : String → String) (oracle : SimpOracle) (evalO : EvalOracle)
    (sess : ProofSession) (fid : Nat) (cmd : Command)
    (hget : framesGet sess.frames fid = none) :
    addCommand rules hashFn oracle evalO sess fid cmd =
      ⟨sess, .fail "frame not found"⟩ := by
  unfold addCommand
  simp only [hget]

theorem addCommand_on_completed (rules : List (String × RewriteRule))
    (hashFn : String → String) (oracle : SimpOracle) (evalO : EvalOracle)
    (sess : ProofSession) (fid : Nat) (cmd : Command) (frame : FrameState)
    (hget : framesGet sess.frames fid = some frame)
    (hc : frame.completed = true) :
    addCommand rules hashFn oracle evalO sess fid cmd =
      ⟨sess, .fail "frame already completed"⟩ := by
  unfold addCommand
  simp only [hget]
  rw [if_pos hc]

theorem addCommand_shape (rules : List (String × RewriteRule))
    (hashFn : String → String) (oracle : SimpOracle) (evalO : EvalOracle)
    (sess : ProofSession) (fid : Nat) (cmd : Command) (frame : FrameState)
    (hget : framesGet sess.frames fid = some frame)
    (hcomp : frame.completed = false) :
    (addCommand rules hashFn oracle evalO sess fid cmd).sess.globalContext =
      sess.globalContext ∧
    (addCommand rules hashFn oracle evalO sess fid cmd).sess.counter = sess.counter ∧
    ((addCommand rules hashFn oracle evalO sess fid cmd).sess.frames = sess.frames ∨
      ∃ fr', fr'.completed = false ∧
        (addCommand rules hashFn oracle evalO sess fid cmd).sess.frames =
          framesSet sess.frames fid fr') := by
  unfold addCommand
  simp only [hget]
  rw [hcomp]
  simp only [Bool.false_eq_true, if_false]
  cases hsnap : snapshotResolved frame rules cmd with
  | error m => refine ⟨?_, ?_, Or.inl ?_⟩ <;> trivial
  | ok resolved =>
      simp only []
      cases hrun : ec_runCommand rules hashFn oracle evalO
          ⟨frame.goal, frame.context⟩ cmd with
      | error m => refine ⟨?_, ?_, Or.inl ?_⟩ <;> trivial
      | ok pr =>
          obtain ⟨success, st⟩ := pr
          simp only []
          by_cases hsucc : success = true
          · rw [hsucc]
            simp only [Bool.not_true, Bool.false_eq_true, if_false]
            refine ⟨?_, ?_, Or.inr ⟨_, ?_, rfl⟩⟩ <;> trivial
          · rw [Bool.not_eq_true] at hsucc
            rw [hsucc]
            simp only [Bool.not_false, if_true]
            refine ⟨?_, ?_, Or.inr ⟨_, ?_, rfl⟩⟩ <;> trivial

theorem finalize_not_found (sess : ProofSession) (fid : Nat)
    (hget : framesGet sess.frames fid = none) :
    finalize sess fid = ⟨sess, .fail "frame not found"⟩ := by
  unfold finalize
  simp only [hget]

theorem finalize_on_completed (sess : ProofSession) (fid : Nat)
    (frame : FrameState) (hget : framesGet sess.frames fid = some frame)
    (hc : frame.completed = true) :
    finalize sess fid = ⟨sess, .fail "frame already completed"⟩ := by
  unfold finalize
  simp only [hget]
  rw [if_pos hc]

theorem finalize_shape (sess : ProofSession) (fid : Nat) (frame : FrameState)
    (hget : framesGet sess.frames fid = some frame)
    (hcomp : frame.completed = false) :
    (finalize sess fid).sess.counter = sess.counter ∧
    ((finalize sess fid).sess.frames = sess.frames ∨
      (∃ fr', fr'.completed = true ∧
        (finalize sess fid).sess.frames = framesSet sess.frames fid fr') ∨
      (∃ pid parent parent2 fr', frame.parentFrameId = some pid ∧
        (pid == fid) = false ∧
        framesGet sess.frames pid = some parent ∧
        parent2.completed = parent.completed ∧
        fr'.completed = true ∧
        (finalize sess fid).sess.frames =
          framesSet (framesSet sess.frames pid parent2) fid fr')) := by
  unfold finalize
  simp only [hget]
  rw [hcomp]
  simp only [Bool.false_eq_true, if_false]
  by_cases hpr : ec_checkGoalProved frame.context frame.goal = true
  · rw [hpr]
    simp only [Bool.not_true, Bool.false_eq_true, if_false]
    cases hpar : frame.parentFrameId with
    | none =>
        simp only []
        cases hadd : Context.addFact sess.globalContext frame.name frame.goal with
        | error m => exact ⟨rfl, Or.inl rfl⟩
        | ok gctx =>
            refine ⟨rfl, Or.inr (Or.inl ⟨_, ?_, rfl⟩)⟩
            rfl
    | some pid =>
        simp only []
        by_cases hpid : (pid == fid) = true
        · rw [if_pos hpid]
          cases hadd : Context.addFact frame.context frame.name frame.goal with
          | error m => exact ⟨rfl, Or.inl rfl⟩
          | ok pctx =>
              refine ⟨rfl, Or.inr (Or.inl ⟨_, ?_, rfl⟩)⟩
              rfl
        · rw [if_neg hpid]
          cases hp2 : framesGet sess.frames pid with
          | none => exact ⟨rfl, Or.inl rfl⟩
          | some parent =>
              simp only []
              cases hadd : Context.addFact parent.context frame.name frame.goal with
              | error m => exact ⟨rfl, Or.inl rfl⟩
              | ok pctx =>
                  refine ⟨rfl, Or.inr (Or.inr
                    ⟨pid, parent, _, _, rfl, ?_, hp2, ?_, ?_, rfl⟩)⟩
                  · rw [Bool.not_eq_true] at hpid
                    exact hpid
                  · rfl
                  · rfl
  · rw [Bool.not_eq_true] at hpr
    rw [hpr]
    simp only [Bool.not_false, if_true]
    refine ⟨?_, Or.inl ?_⟩ <;> trivial

theorem finalize_ok_frame (sess : ProofSession) (fid : Nat)
    (hok : (finalize sess fid).outcome = .ok) :
    ∃ fr', fr'.completed = true ∧
      framesGet (finalize sess fid).sess.frames fid = some fr' := by
  unfold finalize at hok ⊢
  cases hget : framesGet sess.frames fid with
  | none => rw [hget] at hok; simp at hok
  | some frame =>
      rw [hget] at hok
      simp only [] at hok ⊢
      by_cases hcomp : frame.completed = true
      · rw [if_pos hcomp] at hok ⊢
        simp at hok
      · rw [if_neg hcomp] at hok ⊢
        by_cases hpr : (!(ec_checkGoalProved frame.context frame.goal)) = true
        · rw [if_pos hpr] at hok ⊢
          simp at hok
        · rw [if_neg hpr] at hok ⊢
          cases hpar : frame.parentFrameId with
          | none =>
              rw [hpar] at hok
              simp only [] at hok ⊢
              cases hadd : Context.addFact sess.globalContext frame.name frame.goal with
              | error m =>
                  rw [hadd] at hok
                  exact OpOutcome.noConfusion hok
              | ok gctx => exact ⟨_, rfl, framesGet_framesSet_self _ _ _⟩
          | some pid =>
              rw [hpar] at hok
              simp only [] at hok ⊢
              by_cases hpid : (pid == fid) = true
              · rw [if_pos hpid] at hok ⊢
                cases hadd : Context.addFact frame.context frame.name frame.goal with
                | error m =>
                    rw [hadd] at hok
                    exact OpOutcome.noConfusion hok
                | ok pctx => exact ⟨_, rfl, framesGet_framesSet_self _ _ _⟩
              · rw [if_neg hpid] at hok ⊢
                cases hp2 : framesGet sess.frames pid with
                | none =>
                    rw [hp2] at hok
                    exact OpOutcome.noConfusion hok
                | some parent =>
                    rw [hp2] at hok
                    simp only [] at hok ⊢
                    cases hadd : Context.addFact parent.context frame.name frame.goal with
                    | error m =>
                        rw [hadd] at hok
                        exact OpOutcome.noConfusion hok
                    | ok pctx => exact ⟨_, rfl, framesGet_framesSet_self _ _ _⟩

theorem finalize_untouched (sess : ProofSession) (fid gid : Nat)
    (hne : gid ≠ fid)
    (hpar : ∀ fr pid, framesGet sess.frames fid = some fr →
      fr.parentFrameId = some pid → gid ≠ pid) :
    framesGet (finalize sess fid).sess.frames gid = framesGet sess.frames gid := by
  cases hget : framesGet sess.frames fid with
  | none => rw [finalize_not_found sess fid hget]
  | some frame =>
      by_cases hcomp : frame.completed = true
      · rw [finalize_on_completed sess fid frame hget hcomp]
      · rw [Bool.not_eq_true] at hcomp
        obtain ⟨hc, hfr⟩ := finalize_shape sess fid frame hget hcomp
        rcases hfr with h | ⟨fr', hfc, h⟩ |
          ⟨pid, parent, parent2, fr', hp, hpf, hgp, hpc, hfc, h⟩
        · rw [h]
        · rw [h]
          exact framesGet_framesSet_ne _ _ _ _ (fun e => hne e.symm)
        · rw [h]
          rw [framesGet_framesSet_ne _ _ _ _ (fun e => hne e.symm)]
          exact framesGet_framesSet_ne _ _ _ _
            (fun e => (hpar frame pid hget hp) e.symm)

/-- All registered frame ids are bounded by the session counter (so a
freshly allocated id is never already in use). -/
abbrev framesBounded (sess : ProofSession) : Prop :=
  ∀ p ∈ sess.frames, p.1 ≤ sess.counter

/-- The frame registered under `fid` is (already) marked completed. -/
def completedAt (sess : ProofSession) (fid : Nat) : Prop :=
  ∃ fr, framesGet sess.frames fid = some fr ∧ fr.completed = true

theorem startHave_parts (sess : ProofSession) (name : String) (goal : Fact)
    (p : Option Nat) :
    ∃ fr : FrameState,
      (startHave sess name goal p).2.frames =
        framesSet sess.frames (sess.counter + 1) fr ∧
      (startHave sess name goal p).2.counter = sess.counter + 1 ∧
      (startHave sess name goal p).1 = sess.counter + 1 :=
  ⟨_, rfl, rfl, rfl⟩

theorem addCommand_preserves (rules : List (String × RewriteRule))
    (hashFn : String → String) (oracle : SimpOracle) (evalO : EvalOracle)
    (sess : ProofSession) (fid : Nat) (cmd : Command) :
    (framesBounded sess →
      framesBounded (addCommand rules hashFn oracle evalO sess fid cmd).sess) ∧
    (∀ gid, completedAt sess gid →
      completedAt (addCommand rules hashFn oracle evalO sess fid cmd).sess gid) := by
  cases hget : framesGet sess.frames fid with
  | none =>
      rw [addCommand_not_found rules hashFn oracle evalO sess fid cmd hget]
      exact ⟨fun h => h, fun gid h => h⟩
  | some frame =>
      by_cases hcomp : frame.completed = true
      · rw [addCommand_on_completed rules hashFn oracle evalO sess fid cmd frame
          hget hcomp]
        exact ⟨fun h => h, fun gid h => h⟩
      · rw [Bool.not_eq_true] at hcomp
        obtain ⟨hg, hc, hfr⟩ :=
          addCommand_shape rules hashFn oracle evalO sess fid cmd frame hget hcomp
        rcases hfr with h | ⟨fr', hfc, h⟩
        · constructor
          · intro hb p hp
            rw [h] at hp
            rw [hc]
            exact hb p hp
          · intro gid ⟨g, hgg, hgc⟩
            refine ⟨g, ?_, hgc⟩
            rw [h]
            exact hgg
        · constructor
          · intro hb p hp
            rw [h] at hp
            rw [hc]
            rcases mem_framesSet sess.frames fid fr' p hp with h1 | ⟨q, hq, h1⟩
            · rw [h1]
              have := hb _ (mem_of_framesGet sess.frames fid frame hget)
              exact this
            · rw [h1]
              exact hb q hq
          · intro gid ⟨g, hgg, hgc⟩
            by_cases hig : fid = gid
            · exfalso
              rw [hig, hgg] at hget
              cases hget
              rw [hgc] at hcomp
              exact Bool.noConfusion hcomp
            · refine ⟨g, ?_, hgc⟩
              rw [h]
              rw [framesGet_framesSet_ne _ _ _ _ hig]
              exact hgg

theorem finalize_preserves (sess : ProofSession) (fid : Nat) :
    (framesBounded sess → framesBounded (finalize sess fid).sess) ∧
    (∀ gid, completedAt sess gid → completedAt (finalize sess fid).sess gid) := by
  cases hget : framesGet sess.frames fid with
  | none =>
      rw [finalize_not_found sess fid hget]
      exact ⟨fun h => h, fun gid h => h⟩
  | some frame =>
      by_cases hcomp : frame.completed = true
      · rw [finalize_on_completed sess fid frame hget hcomp]
        exact ⟨fun h => h, fun gid h => h⟩
      · rw [Bool.not_eq_true] at hcomp
        obtain ⟨hc, hfr⟩ := finalize_shape sess fid frame hget hcomp
        rcases hfr with h | ⟨fr', hfc, h⟩ |
          ⟨pid, parent, parent2, fr', hp, hpf, hgp, hpc, hfc, h⟩
        · constructor
          · intro hb p hp
            rw [h] at hp
            rw [hc]
            exact hb p hp
          · intro gid ⟨g, hgg, hgc⟩
            refine ⟨g, ?_, hgc⟩
            rw [h]
            exact hgg
        · constructor
          · intro hb p hp
            rw [h] at hp
            rw [hc]
            rcases mem_framesSet sess.frames fid fr' p hp with h1 | ⟨q, hq, h1⟩
            · rw [h1]
              exact hb _ (mem_of_framesGet sess.frames fid frame hget)
            · rw [h1]
              exact hb q hq
          · intro gid ⟨g, hgg, hgc⟩
            by_cases hig : fid = gid
            · subst hig
              refine ⟨fr', ?_, hfc⟩
              rw [h]
              exact framesGet_framesSet_self _ _ _
            · refine ⟨g, ?_, hgc⟩
              rw [h, framesGet_framesSet_ne _ _ _ _ hig]
              exact hgg
        · constructor
          · intro hb p hp
            rw [h] at hp
            rw [hc]
            rcases mem_framesSet _ fid fr' p hp with h1 | ⟨q, hq, h1⟩
            · rw [h1]
              exact hb _ (mem_of_framesGet sess.frames fid frame hget)
            · rcases mem_framesSet sess.frames pid parent2 q hq with h2 | ⟨r, hr, h2⟩
              · rw [h1, h2]
                exact hb _ (mem_of_framesGet sess.frames pid parent hgp)
              · rw [h1, h2]
                exact hb r hr
          · intro gid ⟨g, hgg, hgc⟩
            by_cases hig : fid = gid
            · subst hig
              refine ⟨fr', ?_, hfc⟩
              rw [h]
              exact framesGet_framesSet_self _ _ _
            · by_cases hpg : pid = gid
              · subst hpg
                refine ⟨parent2, ?_, ?_⟩
                · rw [h, framesGet_framesSet_ne _ _ _ _ hig]
                  exact framesGet_framesSet_self _ _ _
                · rw [hgg] at hgp
                  cases hgp
                  rw [hpc]
                  exact hgc
              · refine ⟨g, ?_, hgc⟩
                rw [h, framesGet_framesSet_ne _ _ _ _ hig,
                  framesGet_framesSet_ne _ _ _ _ hpg]
                exact hgg

theorem runOp_preserves (rules : List (String × RewriteRule))
    (hashFn : String → String) (oracle : SimpOracle) (evalO : EvalOracle)
    (sess : ProofSession) (op : SessionOp) :
    (framesBounded sess →
      framesBounded (runOp rules hashFn oracle evalO sess op).sess) ∧
    (framesBounded sess → ∀ gid, completedAt sess gid →
      completedAt (runOp rules hashFn oracle evalO sess op).sess gid) := by
  cases op with
  | startHave name goal p =>
      obtain ⟨fr, hfs, hcnt, _⟩ := startHave_parts sess name goal p
      constructor
      · intro hb q hq
        have hq' : q ∈ framesSet sess.frames (sess.counter + 1) fr := by
          rw [← hfs]
          exact hq
        have hcnt' : (runOp rules hashFn oracle evalO sess
            (.startHave name goal p)).sess.counter = sess.counter + 1 := hcnt
        rw [hcnt']
        rcases mem_framesSet sess.frames (sess.counter + 1) fr q hq' with h1 | ⟨r, hr, h1⟩
        · rw [h1]
        · rw [h1]
          exact Nat.le_succ_of_le (hb r hr)
      · intro hb gid ⟨g, hgg, hgc⟩
        refine ⟨g, ?_, hgc⟩
        have hmem := mem_of_framesGet sess.frames gid g hgg
        have hlt : gid ≠ sess.counter + 1 := by
          have := hb _ hmem
          omega
        have hfs' : (runOp rules hashFn oracle evalO sess
            (.startHave name goal p)).sess.frames =
            framesSet sess.frames (sess.counter + 1) fr := hfs
        rw [hfs', framesGet_framesSet_ne _ _ _ _ (fun e => hlt e.symm)]
        exact hgg
  | addCommand fid cmd =>
      obtain ⟨h1, h2⟩ := addCommand_preserves rules hashFn oracle evalO sess fid cmd
      exact ⟨h1, fun _ => h2⟩
  | finalize fid =>
      obtain ⟨h1, h2⟩ := finalize_preserves sess fid
      exact ⟨h1, fun _ => h2⟩
  | addGlobalFact n f ow =>
      obtain ⟨hf, hc⟩ := addGlobalFact_shape sess n f ow
      constructor
      · intro hb p hp
        have hp' : p ∈ (addGlobalFact sess n f ow).sess.frames := hp
        rw [hf] at hp'
        show p.1 ≤ (addGlobalFact sess n f ow).sess.counter
        rw [hc]
        exact hb p hp'
      · intro hb gid ⟨g, hgg, hgc⟩
        refine ⟨g, ?_, hgc⟩
        show framesGet (addGlobalFact sess n f ow).sess.frames gid = some g
        rw [hf]
        exact hgg

theorem runOps_preserves (rules : List (String × RewriteRule))
    (hashFn : String → String) (oracle : SimpOracle) (evalO : EvalOracle) :
    ∀ (ops : List SessionOp) (sess : ProofSession) (gid : Nat),
      framesBounded sess → completedAt sess gid →
      framesBounded (runOps rules hashFn oracle evalO sess ops) ∧
      completedAt (runOps rules hashFn oracle evalO sess ops) gid := by
  intro ops
  induction ops with
  | nil => exact fun sess gid hb hcpl => ⟨hb, hcpl⟩
  | cons op rest ih =>
      intro sess gid hb hcpl
      obtain ⟨h1, h2⟩ := runOp_preserves rules hashFn oracle evalO sess op
      exact ih _ gid (h1 hb) (h2 hb gid hcpl)

/-- C10: `startHave` with a supplied `parentFrameId` that identifies no
registered frame does not fail: it allocates the next id, gives the new
frame a clone of the session's global context, records the nonexistent
id as the frame's parent, marks it incomplete, leaves the global context
itself untouched and appends the `start_frame` record. -/
theorem startHave_ghost_parent (sess : ProofSession) (name : String)
    (goal : Fact) (p : Nat) (hp : framesGet sess.frames p = none) :
    (startHave sess name goal (some p)).1 = sess.counter + 1 ∧
    framesGet (startHave sess name goal (some p)).2.frames (sess.counter + 1) =
      some ⟨sess.counter + 1, name, goal, sess.globalContext.clone, [], false,
        some p⟩ ∧
    (startHave sess name goal (some p)).2.globalContext = sess.globalContext ∧
    (startHave sess name goal (some p)).2.counter = sess.counter + 1 ∧
    (startHave sess name goal (some p)).2.commandHistory =
      sess.commandHistory ++
        [{ kind := .start_frame, frameId := sess.counter + 1,
           frameName := some name, parentFrameId := some p,
           goal := some goal }] := by
  refine ⟨rfl, ?_, rfl, rfl, rfl⟩
  have h : (startHave sess name goal (some p)).2.frames =
      framesSet sess.frames (sess.counter + 1)
        ⟨sess.counter + 1, name, goal, sess.globalContext.clone, [], false,
          some p⟩ := by
    unfold startHave
    simp only [hp]
    rfl
  rw [h]
  exact framesGet_framesSet_self _ _ _

/-- Witness for `startHave_ghost_parent` at a concrete session. -/
theorem startHave_ghost_parent_witness :
    framesGet ([] : List (Nat × FrameState)) 7 = none ∧
    ((startHave ⟨[], [], 0, [], []⟩ "claim" ⟨.eq, .var "x", .var "x"⟩
        (some 7)).1 = 1 ∧
      framesGet (startHave ⟨[], [], 0, [], []⟩ "claim"
          ⟨.eq, .var "x", .var "x"⟩ (some 7)).2.frames 1 =
        some ⟨1, "claim", ⟨.eq, .var "x", .var "x"⟩,
          Context.clone [], [], false, some 7⟩ ∧
      (startHave ⟨[], [], 0, [], []⟩ "claim" ⟨.eq, .var "x", .var "x"⟩
          (some 7)).2.globalContext = [] ∧
      (startHave ⟨[], [], 0, [], []⟩ "claim" ⟨.eq, .var "x", .var "x"⟩
          (some 7)).2.counter = 1 ∧
      (startHave ⟨[], [], 0, [], []⟩ "claim" ⟨.eq, .var "x", .var "x"⟩
          (some 7)).2.commandHistory =
        [] ++ [{ kind := .start_frame
                 frameId := 1
                 frameName := some "claim"
                 parentFrameId := some 7
                 goal := some ⟨.eq, .var "x", .var "x"⟩ }]) :=
  ⟨rfl, startHave_ghost_parent ⟨[], [], 0, [], []⟩ "claim"
    ⟨.eq, .var "x", .var "x"⟩ 7 rfl⟩

/-- C6: once `finalize` succeeds on a frame, the frame is permanently
completed: after any further sequence of session operations, an
`addCommand` on that frame returns the `frame already completed` failure
with the session unchanged (so the frame's goal and context are not
mutated), and a second `finalize` on it likewise fails with the session
unchanged (so the `name → goal` fact is not promoted a second time). -/
theorem finalize_is_permanent (rules : List (String × RewriteRule))
    (hashFn : String → String) (oracle : SimpOracle) (evalO : EvalOracle)
    (sess : ProofSession) (fid : Nat) (hinv : framesBounded sess)
    (hok : (finalize sess fid).outcome = .ok)
    (ops : List SessionOp) (cmd : Command) :
    addCommand rules hashFn oracle evalO
        (runOps rules hashFn oracle evalO (finalize sess fid).sess ops) fid cmd =
      ⟨runOps rules hashFn oracle evalO (finalize sess fid).sess ops,
        .fail "frame already completed"⟩ ∧
    finalize (runOps rules hashFn oracle evalO (finalize sess fid).sess ops) fid =
      ⟨runOps rules hashFn oracle evalO (finalize sess fid).sess ops,
        .fail "frame already completed"⟩ := by
  obtain ⟨fr', hfc, hgf⟩ := finalize_ok_frame sess fid hok
  have hb1 : framesBounded (finalize sess fid).sess :=
    (finalize_preserves sess fid).1 hinv
  have hc1 : completedAt (finalize sess fid).sess fid := ⟨fr', hgf, hfc⟩
  obtain ⟨hb2, hc2⟩ := runOps_preserves rules hashFn oracle evalO ops
    (finalize sess fid).sess fid hb1 hc1
  obtain ⟨g, hg, hgc⟩ := hc2
  exact ⟨addCommand_on_completed rules hashFn oracle evalO _ fid cmd g hg hgc,
    finalize_on_completed _ fid g hg hgc⟩

/-- Goal `x = x`, used by several concrete witnesses. -/
def sampleGoal : Fact := ⟨.eq, .var "x", .var "x"⟩

/-- A one-frame session whose frame is structurally proved. -/
def permSess : ProofSession :=
  ⟨[], [(1, ⟨1, "main", sampleGoal, [], [], false, none⟩)], 1, [], []⟩

/-- Witness for `finalize_is_permanent`: a successful finalize on a
concrete session, followed by one further operation. -/
theorem finalize_is_permanent_witness :
    (framesBounded permSess ∧ (finalize permSess 1).outcome = .ok) ∧
    (addCommand [] (fun _ => "h") (fun s => .error s) (fun _ _ => .error "e")
        (runOps [] (fun _ => "h") (fun s => .error s) (fun _ _ => .error "e")
          (finalize permSess 1).sess [.startHave "inner" sampleGoal (some 1)])
        1 .certain =
      ⟨runOps [] (fun _ => "h") (fun s => .error s) (fun _ _ => .error "e")
          (finalize permSess 1).sess [.startHave "inner" sampleGoal (some 1)],
        .fail "frame already completed"⟩ ∧
      finalize (runOps [] (fun _ => "h") (fun s => .error s)
          (fun _ _ => .error "e") (finalize permSess 1).sess
          [.startHave "inner" sampleGoal (some 1)]) 1 =
        ⟨runOps [] (fun _ => "h") (fun s => .error s) (fun _ _ => .error "e")
            (finalize permSess 1).sess [.startHave "inner" sampleGoal (some 1)],
          .fail "frame already completed"⟩) :=
  ⟨⟨by decide, by rfl⟩,
    finalize_is_permanent [] (fun _ => "h") (fun s => .error s)
      (fun _ _ => .error "e") permSess 1 (by decide) (by rfl)
      [.startHave "inner" sampleGoal (some 1)] .certain⟩

theorem addCommand_untouched (rules : List (String × RewriteRule))
    (hashFn : String → String) (oracle : SimpOracle) (evalO : EvalOracle)
    (sess : ProofSession) (fid : Nat) (cmd : Command) (gid : Nat)
    (hne : gid ≠ fid) :
    framesGet (addCommand rules hashFn oracle evalO sess fid cmd).sess.frames
      gid = framesGet sess.frames gid := by
  cases hget : framesGet sess.frames fid with
  | none => rw [addCommand_not_found rules hashFn oracle evalO sess fid cmd hget]
  | some frame =>
      by_cases hcomp : frame.completed = true
      · rw [addCommand_on_completed rules hashFn oracle evalO sess fid cmd frame
          hget hcomp]
      · rw [Bool.not_eq_true] at hcomp
        obtain ⟨_, _, hfr⟩ :=
          addCommand_shape rules hashFn oracle evalO sess fid cmd frame hget hcomp
        rcases hfr with h | ⟨fr', hfc, h⟩
        · rw [h]
        · rw [h]
          exact framesGet_framesSet_ne _ _ _ _ (fun e => hne e.symm)

/-- A heap of fact objects; an address is an index into the cell list.
This models the JavaScript object graph relevant to `Context.clone`
(`JSON.parse(JSON.stringify(...))`): each context entry references a
heap cell, and a clone allocates fresh copies of all referenced cells. -/
structure Heap where
  cells : List Fact
deriving DecidableEq, Repr

/-- A context as an object graph: names bound to heap addresses. -/
abbrev HCtx := List (String × Nat)

/-- Dereference one cell. -/
def Heap.read (h : Heap) (a : Nat) : Option Fact := h.cells.get? a

/-- Mutate one cell in place (e.g. `setAtPathInFact` writing through a
fact obtained from a context). -/
def Heap.write (h : Heap) (a : Nat) (f : Fact) : Heap := ⟨h.cells.set a f⟩

/-- Read the fact bound to `n` through the object graph. -/
def readFactH (h : Heap) (c : HCtx) (n : String) : Option Fact :=
  ((c.find? (fun p => p.1 == n)).map (fun p => p.2)).bind h.read

/-- The fresh addresses handed to a clone: consecutive from `len`. -/
def cloneAddrs (len : Nat) : HCtx → HCtx
  | [] => []
  | (k, _) :: rest => (k, len) :: cloneAddrs (len + 1) rest

/-- The copied cells of a clone, in context order. -/
def cloneCells (h : Heap) : HCtx → List Fact
  | [] => []
  | (_, a) :: rest =>
      (h.read a).getD ⟨.eq, .var "", .var ""⟩ :: cloneCells h rest

/-- `Context.clone` on the object graph: every fact is deep-copied into
a fresh cell appended to the heap; the clone's bindings point only at
the fresh copies. -/
def cloneHCtx (h : Heap) (c : HCtx) : Heap × HCtx :=
  (⟨h.cells ++ cloneCells h c⟩, cloneAddrs h.cells.length c)

/-- Every address of the context is a live heap cell. -/
abbrev HCtxWF (h : Heap) (c : HCtx) : Prop := ∀ p ∈ c, p.2 < h.cells.length

theorem mem_cloneAddrs_ge : ∀ (c : HCtx) (len : Nat), ∀ q ∈ cloneAddrs len c,
    len ≤ q.2 := by
  intro c
  induction c with
  | nil =>
      intro len q hq
      simp [cloneAddrs] at hq
  | cons hd tl ih =>
      intro len q hq
      obtain ⟨k, a⟩ := hd
      simp only [cloneAddrs, List.mem_cons] at hq
      rcases hq with h | h
      · rw [h]
      · exact Nat.le_of_succ_le (ih (len + 1) q h)

theorem readFactH_write_fresh (h : Heap) (c : HCtx) (hwf : HCtxWF h c)
    (a : Nat) (fa : Fact) (nm : String) (ha : h.cells.length ≤ a) :
    readFactH ((cloneHCtx h c).1.write a fa) c nm = readFactH h c nm := by
  unfold readFactH
  cases hf : c.find? (fun p => p.1 == nm) with
  | none => rfl
  | some q =>
      simp only [Option.map_some']
      have hlt : q.2 < h.cells.length := hwf q (List.mem_of_find?_eq_some hf)
      have hne : a ≠ q.2 := fun e => Nat.lt_irrefl _ (Nat.lt_of_lt_of_le hlt (e ▸ ha))
      show Heap.read ((cloneHCtx h c).1.write a fa) q.2 = Heap.read h q.2
      unfold Heap.read Heap.write cloneHCtx
      simp only []
      rw [List.get?_set_ne fa _ hne]
      exact List.get?_append hlt

theorem readFactH_write_orig (h : Heap) (c : HCtx) (a : Nat) (fa : Fact)
    (nm : String) (ha : a < h.cells.length) :
    readFactH ((cloneHCtx h c).1.write a fa) (cloneHCtx h c).2 nm =
      readFactH (cloneHCtx h c).1 (cloneHCtx h c).2 nm := by
  unfold readFactH
  cases hf : (cloneHCtx h c).2.find? (fun p => p.1 == nm) with
  | none => rfl
  | some q =>
      simp only [Option.map_some']
      have hge : h.cells.length ≤ q.2 :=
        mem_cloneAddrs_ge c h.cells.length q (List.mem_of_find?_eq_some hf)
      have hne : a ≠ q.2 := fun e => Nat.lt_irrefl _ (Nat.lt_of_lt_of_le ha (e ▸ hge))
      show Heap.read ((cloneHCtx h c).1.write a fa) q.2 =
        Heap.read (cloneHCtx h c).1 q.2
      unfold Heap.read Heap.write cloneHCtx
      simp only []
      rw [List.get?_set_ne fa _ hne]

/-- C7: a frame's context is a deep clone taken at creation time.
`startHave` snapshots the parent's context; afterwards `addGlobalFact`
never touches any registered frame, a command run on one frame touches
neither the global context nor any other frame, and `finalize` of a
frame leaves every frame other than itself and its parent untouched.
On the object graph, a clone consists solely of freshly allocated
cells, mutating a fact obtained from the clone never changes what the
original context reads, and mutating a fact of the original never
changes what the clone reads. -/
theorem context_clone_isolation (rules : List (String × RewriteRule))
    (hashFn : String → String) (oracle : SimpOracle) (evalO : EvalOracle)
    (sess : ProofSession) (name : String) (goal : Fact) (p : Nat)
    (parentFr : FrameState) (hp : framesGet sess.frames p = some parentFr)
    (n : String) (f : Fact) (ow : Bool) (fid : Nat) (cmd : Command)
    (gid : Nat) (hne : gid ≠ fid)
    (hpar : ∀ fr pid, framesGet sess.frames fid = some fr →
      fr.parentFrameId = some pid → gid ≠ pid)
    (h : Heap) (c : HCtx) (hwf : HCtxWF h c) (a : Nat) (fa : Fact)
    (nm : String) :
    framesGet (startHave sess name goal (some p)).2.frames (sess.counter + 1) =
      some ⟨sess.counter + 1, name, goal, parentFr.context.clone, [], false,
        some p⟩ ∧
    (addGlobalFact sess n f ow).sess.frames = sess.frames ∧
    (addCommand rules hashFn oracle evalO sess fid cmd).sess.globalContext =
      sess.globalContext ∧
    framesGet (addCommand rules hashFn oracle evalO sess fid cmd).sess.frames
        gid = framesGet sess.frames gid ∧
    framesGet (finalize sess fid).sess.frames gid = framesGet sess.frames gid ∧
    (∀ q ∈ (cloneHCtx h c).2, h.cells.length ≤ q.2) ∧
    (h.cells.length ≤ a →
      readFactH ((cloneHCtx h c).1.write a fa) c nm = readFactH h c nm) ∧
    (a < h.cells.length →
      readFactH ((cloneHCtx h c).1.write a fa) (cloneHCtx h c).2 nm =
        readFactH (cloneHCtx h c).1 (cloneHCtx h c).2 nm) := by
  refine ⟨?_, (addGlobalFact_shape sess n f ow).1, ?_,
    addCommand_untouched rules hashFn oracle evalO sess fid cmd gid hne,
    finalize_untouched sess fid gid hne hpar,
    mem_cloneAddrs_ge c h.cells.length,
    readFactH_write_fresh h c hwf a fa nm,
    readFactH_write_orig h c a fa nm⟩
  · have hfs : (startHave sess name goal (some p)).2.frames =
        framesSet sess.frames (sess.counter + 1)
          ⟨sess.counter + 1, name, goal, parentFr.context.clone, [], false,
            some p⟩ := by
      unfold startHave
      simp only [hp]
    rw [hfs]
    exact framesGet_framesSet_self _ _ _
  · cases hget : framesGet sess.frames fid with
    | none =>
        rw [addCommand_not_found rules hashFn oracle evalO sess fid cmd hget]
    | some frame =>
        by_cases hcomp : frame.completed = true
        · rw [addCommand_on_completed rules hashFn oracle evalO sess fid cmd
            frame hget hcomp]
        · rw [Bool.not_eq_true] at hcomp
          exact (addCommand_shape rules hashFn oracle evalO sess fid cmd frame
            hget hcomp).1

/-- Witness inputs for the clone-isolation theorem. -/
def isoHeap : Heap := ⟨[sampleGoal]⟩

/-- A one-entry object-graph context over `isoHeap`. -/
def isoCtx : HCtx := [("hyp", 0)]

/-- Witness for `context_clone_isolation` at a concrete session, frame
ids, heap and context. -/
theorem context_clone_isolation_witness :
    (framesGet permSess.frames 1 =
        some ⟨1, "main", sampleGoal, [], [], false, none⟩ ∧
      (2 : Nat) ≠ 1 ∧
      (∀ fr pid, framesGet permSess.frames 1 = some fr →
        fr.parentFrameId = some pid → (2 : Nat) ≠ pid) ∧
      HCtxWF isoHeap isoCtx) ∧
    (framesGet (startHave permSess "inner" sampleGoal (some 1)).2.frames
        (permSess.counter + 1) =
      some ⟨permSess.counter + 1, "inner", sampleGoal,
        Context.clone ([] : Context), [], false, some 1⟩ ∧
    (addGlobalFact permSess "g" sampleGoal false).sess.frames =
      permSess.frames ∧
    (addCommand [] (fun _ => "h") (fun s => .error s) (fun _ _ => .error "e")
        permSess 1 .certain).sess.globalContext = permSess.globalContext ∧
    framesGet (addCommand [] (fun _ => "h") (fun s => .error s)
        (fun _ _ => .error "e") permSess 1 .certain).sess.frames 2 =
      framesGet permSess.frames 2 ∧
    framesGet (finalize permSess 1).sess.frames 2 =
      framesGet permSess.frames 2 ∧
    (∀ q ∈ (cloneHCtx isoHeap isoCtx).2, isoHeap.cells.length ≤ q.2) ∧
    (isoHeap.cells.length ≤ 1 →
      readFactH ((cloneHCtx isoHeap isoCtx).1.write 1 sampleGoal) isoCtx
        "hyp" = readFactH isoHeap isoCtx "hyp") ∧
    (1 < isoHeap.cells.length →
      readFactH ((cloneHCtx isoHeap isoCtx).1.write 1 sampleGoal)
          (cloneHCtx isoHeap isoCtx).2 "hyp" =
        readFactH (cloneHCtx isoHeap isoCtx).1
          (cloneHCtx isoHeap isoCtx).2 "hyp")) :=
  ⟨⟨rfl, by decide,
    fun fr pid h1 h2 => by cases h1; exact Option.noConfusion h2,
    by decide⟩,
    context_clone_isolation [] (fun _ => "h") (fun s => .error s)
      (fun _ _ => .error "e") permSess "inner" sampleGoal 1
      ⟨1, "main", sampleGoal, [], [], false, none⟩ rfl "g" sampleGoal false 1
      .certain 2 (by decide)
      (fun fr pid h1 h2 => by cases h1; exact Option.noConfusion h2)
      isoHeap isoCtx (by decide) 1 sampleGoal "hyp"⟩

/-- The `PREC` table of `exprToOriginalString`. -/
def precOf : OpKind → Nat
  | .add => 1 | .sub => 1 | .mul => 2 | .div => 2 | .pow => 3 | .neg => 3

/-- `wrap` inside `exprToOriginalString`. -/
def wrapIf (s : String) (childPrec parentPrec : Nat) : String :=
  if childPrec < parentPrec then "(" ++ s ++ ")" else s

/-- `e.type === 'op'`. -/
def isOpE : Expr → Bool
  | .op _ _ => true
  | _ => false

mutual
/-- `exprToOriginalString` of `example_contradiction.ts` (the
serializer's precedence-aware pretty-printer). The catch-all empty
strings stand for argument accesses on which the source would throw
(missing operands); parser-produced terms never reach them. -/
def exprToOriginalString : Expr → Nat → String
  | .var n, _ => n
  | .const v, _ => v.asString
  | .func n args, _ =>
      (match args with
      | .cons arg _ =>
          n ++ " " ++ (if isOpE arg then "(" ++ exprToOriginalString arg 4 ++ ")"
            else exprToOriginalString arg 4)
      | .nil => n)
  | .op .add args, parentPrec =>
      wrapIf (String.intercalate " + " (exprListToOriginalStrings args 1)) 1
        parentPrec
  | .op .mul args, parentPrec =>
      wrapIf (String.intercalate " * " (exprListToOriginalStrings args 2)) 2
        parentPrec
  | .op .sub args, parentPrec =>
      (match args with
      | .cons a (.cons b _) =>
          wrapIf (exprToOriginalString a 1 ++ " - " ++ exprToOriginalString b 2)
            1 parentPrec
      | _ => "")
  | .op .div args, parentPrec =>
      (match args with
      | .cons a (.cons b _) =>
          wrapIf (exprToOriginalString a 2 ++ " / " ++ exprToOriginalString b 3)
            2 parentPrec
      | _ => "")
  | .op .neg args, parentPrec =>
      (match args with
      | .cons a _ => wrapIf ("-" ++ exprToOriginalString a 3) 3 parentPrec
      | _ => "")
  | .op .pow args, parentPrec =>
      (match args with
      | .cons a (.cons b _) =>
          wrapIf (exprToOriginalString a 3 ++ " ^ " ++ exprToOriginalString b 3)
            3 parentPrec
      | _ => "")

/-- `e.args.map(a => this.exprToOriginalString(a, p))`. -/
def exprListToOriginalStrings : ExprList → Nat → List String
  | .nil, _ => []
  | .cons a tl, p => exprToOriginalString a p :: exprListToOriginalStrings tl p
end

/-- `factToOriginalString` of the serializer. -/
def factToOriginalString (f : Fact) : String :=
  if f.kind == .eq then
    exprToOriginalString f.lhs 0 ++ " = " ++ exprToOriginalString f.rhs 0
  else
    exprToOriginalString f.lhs 0 ++ " ≠ " ++ exprToOriginalString f.rhs 0

/-- `renderCommandRecord` of the serializer (historically accurate
rendering from the `resolved` snapshots). -/
def renderCommandRecord (rec : CommandRecord) : String :=
  if rec.kind != .cmd then ""
  else
    match rec.cmd with
    | none => ""
    | some cmd =>
        let r := rec.resolved.getD {}
        match cmd with
        | .duoneng c =>
            let d := c.denomProofs.getD []
            if d.length != 0 then "多能 [" ++ String.intercalate ", " d ++ "]"
            else "多能"
        | .buli c =>
            let rhsStr := match r.hypothesisFact with
              | some hf => exprToOriginalString hf.rhs 0
              | none => "???"
            "有 " ++ c.newName ++ " : " ++
              exprToOriginalString (r.component.getD c.component) 0 ++ " ≠ " ++
              rhsStr ++ " 是 不利 " ++ c.hypothesis
        | .fanzheng c => "反证 " ++ c.hypName
        | .rewrite c =>
            "再写 在 " ++ toString (occIndex c.occurrence) ++ " " ++
              c.equalityName
        | .reverse c => "重反 " ++ c.oldName ++ " 成 " ++ c.newName
        | .certain => "确定"

/-- `m[k] = v` only when `m[k] === undefined` (a `Record` keeps first
insertion position). -/
def setIfAbsent (m : List (String × Nat)) (k : String) (v : Nat) :
    List (String × Nat) :=
  if (m.find? (fun p => p.1 == k)).isSome then m else m ++ [(k, v)]

/-- `m[k] = v`: overwrite keeps the key's first insertion position. -/
def upsertKeepPos {α : Type} (m : List (String × α)) (k : String) (v : α) :
    List (String × α) :=
  if (m.find? (fun p => p.1 == k)).isSome then
    m.map (fun p => if p.1 == k then (k, v) else p)
  else m ++ [(k, v)]

/-- `m[k]` on a string-keyed record. -/
def lookupStr {α : Type} (m : List (String × α)) (k : String) : Option α :=
  (m.find? (fun p => p.1 == k)).map (fun p => p.2)

/-- JavaScript string truthiness of an optional string field. -/
def optStrTruthy (o : Option String) : Option String :=
  match o with
  | some s => if s == "" then none else some s
  | none => none

/-- The `earliestProveIndex` pass of `analyzeHistoryForSeeding`. -/
def buildEarliest : List CommandRecord → Nat → List (String × Nat) →
    List (String × Nat)
  | [], _, m => m
  | r :: rest, i, m =>
      let m2 := if r.kind == .finalize_frame then
          match optStrTruthy r.frameName with
          | some n => setIfAbsent m n i
          | none => m
        else m
      buildEarliest rest (i + 1) m2

/-- One reference check of `analyzeHistoryForSeeding`: record the fact
under its name unless the name is proved at or before this index. -/
def refStep (earliest : List (String × Nat)) (i : Nat)
    (m : List (String × Fact)) (n : Option String) (f : Option Fact) :
    List (String × Fact) :=
  match optStrTruthy n, f with
  | some name, some fact =>
      (match lookupStr earliest name with
      | none => upsertKeepPos m name fact
      | some pi => if i < pi then upsertKeepPos m name fact else m)
  | _, _ => m

/-- The `referencedFacts` pass of `analyzeHistoryForSeeding` (without
the final global-context sweep). -/
def buildRefs (earliest : List (String × Nat)) :
    List CommandRecord → Nat → List (String × Fact) → List (String × Fact)
  | [], _, m => m
  | r :: rest, i, m =>
      let m2 := if r.kind == .cmd then
          match r.resolved with
          | some res =>
              let m1 := refStep earliest i m res.hypothesisName
                res.hypothesisFact
              let m2 := refStep earliest i m1 res.hypName res.hypFactBefore
              let m3 := match res.denomProofs with
                | some ds => ds.foldl
                    (fun acc d => refStep earliest i acc (some d.1) d.2) m2
                | none => m2
              let m4 := refStep earliest i m3 res.equalityName
                res.equalitySnapshot
              refStep earliest i m4 res.oldName res.oldFact
          | none => m
        else m
      buildRefs earliest rest (i + 1) m2

/-- One name check of the `firstUseIndex` pass. -/
def useStep (i : Nat) (m : List (String × Nat)) (n : Option String) :
    List (String × Nat) :=
  match optStrTruthy n with
  | some name => setIfAbsent m name i
  | none => m

/-- The `firstUseIndex` pass of `serializeAll`. -/
def buildFirstUse : List CommandRecord → Nat → List (String × Nat) →
    List (String × Nat)
  | [], _, m => m
  | r :: rest, i, m =>
      let m2 := if r.kind == .cmd then
          match r.resolved with
          | some res =>
              let m1 := useStep i m res.hypothesisName
              let m2 := useStep i m1 res.hypName
              let m3 := useStep i m2 res.equalityName
              let m4 := useStep i m3 res.oldName
              match res.denomProofs with
              | some ds => ds.foldl (fun acc d => useStep i acc (some d.1)) m4
              | none => m4
          | none => m
        else m
      buildFirstUse rest (i + 1) m2

/-- The `seedToEmit` selection of `serializeAll`. -/
def buildSeeds (g : Context) (firstUse earliest : List (String × Nat))
    (refs : List (String × Fact)) : List (String × Fact) :=
  refs.foldl (fun acc p =>
    let acc1 := match lookupStr firstUse p.1 with
      | some fu =>
          (match lookupStr earliest p.1 with
          | none => upsertKeepPos acc p.1 p.2
          | some pi => if fu < pi then upsertKeepPos acc p.1 p.2 else acc)
      | none => acc
    if Context.has g p.1 then
      upsertKeepPos acc1 p.1 ((Context.getFact g p.1).getD p.2)
    else acc1) []

/-- `indentUnit.repeat(stack.length)`. -/
def indentOf (n : Nat) : String := String.join (List.replicate n "  ")

/-- The header line of a `start_frame` record (start records always
carry a name and a goal; the fallbacks are unreachable). -/
def headerLine (rec : CommandRecord) : String :=
  "有 " ++ rec.frameName.getD "undefined" ++ " : " ++
    (match rec.goal with
    | some g => factToOriginalString g
    | none => "") ++ " 是"

/-- The streaming loop of `serializeAll`. The open-frame stack has its
top at the head (JavaScript pushes to the end and inspects the last
element); a `finalize_frame` record pops its frame id — the nearest
occurrence to the top via `lastIndexOf`/`splice`, which is `List.erase`
here — and emits no line. The trailing `while (stack.length) stack.pop()`
of the source emits nothing either, so it has no counterpart. -/
def streamLines : List Nat → List CommandRecord → List String
  | _, [] => []
  | stack, rec :: rest =>
      match rec.kind with
      | .start_frame =>
          (indentOf stack.length ++ headerLine rec) ::
            streamLines (rec.frameId :: stack) rest
      | .cmd =>
          (indentOf stack.length ++ renderCommandRecord rec) ::
            streamLines stack rest
      | .finalize_frame => streamLines (stack.erase rec.frameId) rest

/-- The lines of `serializeAll`: seed lines first, then the streamed
history. -/
def serializeAllLines (sess : ProofSession) : List String :=
  let earliest := buildEarliest sess.commandHistory 0 []
  let refs0 := buildRefs earliest sess.commandHistory 0 []
  let refs := (Context.keys sess.globalContext).foldl (fun acc k =>
    match Context.getFact sess.globalContext k with
    | some f => upsertKeepPos acc k f
    | none => acc) refs0
  let firstUse := buildFirstUse sess.commandHistory 0 []
  let seeds := buildSeeds sess.globalContext firstUse earliest refs
  seeds.map (fun p =>
      "有 " ++ p.1 ++ " : " ++ factToOriginalString p.2 ++ " 是 // seeded")
    ++ streamLines [] sess.commandHistory

/-- `serializeAll`: the lines joined by newlines. -/
def serializeAll (sess : ProofSession) : String :=
  String.intercalate (String.mk [Char.ofNat 10]) (serializeAllLines sess)

/-- A session with one started and never finalized frame. -/
def sessC9 : ProofSession :=
  (startHave ⟨[], [], 0, [], []⟩ "main" sampleGoal none).2

/-- C9 counterexample: in this session the only frame was started and
never finalized, yet `serializeAll` renders it as a single ordinary
uncommented header line — there is no trailing `//`-commented incomplete
block anywhere in the output. -/
theorem serializeAll_unfinalized_uncommented_cex :
    (∃ rec ∈ sessC9.commandHistory, rec.kind = .start_frame) ∧
    (∀ r ∈ sessC9.commandHistory, r.kind ≠ .finalize_frame) ∧
    serializeAll sessC9 = "有 main : x = x 是" ∧
    (∀ l ∈ serializeAllLines sessC9, l.startsWith "//" = false) := by
  refine ⟨?_, ?_, ?_, ?_⟩ <;> decide

/-- C9 (amended): the serializer streams the flat record log in
original order — each `start_frame` record emits exactly its inline
header at the current depth, each `cmd` record emits exactly one line,
and `finalize_frame` records emit nothing (they only close a block), so
a frame that is started but never finalized is rendered inline exactly
as a finalized one would be: appending the missing `finalize_frame`
record changes no emitted line, and no record is dropped. -/
theorem serializeAll_streams_inline :
    (∀ (stack : List Nat) (hist : List CommandRecord) (rec : CommandRecord),
      rec.kind = .start_frame →
      streamLines stack (rec :: hist) =
        (indentOf stack.length ++ headerLine rec) ::
          streamLines (rec.frameId :: stack) hist) ∧
    (∀ (stack : List Nat) (hist : List CommandRecord) (rec : CommandRecord),
      rec.kind = .finalize_frame →
      streamLines stack (hist ++ [rec]) = streamLines stack hist) ∧
    (∀ (stack : List Nat) (hist : List CommandRecord),
      (streamLines stack hist).length =
        (hist.filter
          (fun r => r.kind == .start_frame || r.kind == .cmd)).length) := by
  refine ⟨?_, ?_, ?_⟩
  · intro stack hist rec hr
    simp [streamLines, hr]
  · intro stack hist rec hr
    induction hist generalizing stack with
    | nil => simp [streamLines, hr]
    | cons r rest ih =>
        cases hk : r.kind <;> simp [streamLines, hk, ih]
  · intro stack hist
    induction hist generalizing stack with
    | nil => simp [streamLines]
    | cons r rest ih =>
        cases hk : r.kind
        case start_frame => simp [streamLines, List.filter, hk, ih]
        case cmd => simp [streamLines, List.filter, hk, ih]
        case finalize_frame =>
          simp [streamLines, List.filter, hk, ih]
          rfl

/-- Witness for `serializeAll_streams_inline` on the concrete
unfinalized-frame session. -/
theorem serializeAll_streams_inline_witness :
    streamLines [] (sessC9.commandHistory ++
        [{ kind := .finalize_frame, frameId := 1 }]) =
      streamLines [] sessC9.commandHistory ∧
    (streamLines [] sessC9.commandHistory).length =
      (sessC9.commandHistory.filter
        (fun r => r.kind == .start_frame || r.kind == .cmd)).length :=
  ⟨serializeAll_streams_inline.2.1 [] sessC9.commandHistory
      { kind := .finalize_frame, frameId := 1 } rfl,
    serializeAll_streams_inline.2.2 [] sessC9.commandHistory⟩

end CPA